import Mathlib

/-!
# Mini-PGW: BCD identity codec and session lifecycle

A shallow embedding of the parts of `src/client/client.cpp` and
`src/server/server.cpp` that decide the behaviour of the identity codec
(`convertImsiToBcd`, `convertBcdToImsi`), of the UDP receive loop with its
admission block, and of the session deleter (expiry sweep and graceful drain).

Conventions of the embedding:

* a `uint8_t` is a `Nat` below 256; casts to `uint8_t` are written `% 256`;
* a `std::string` is a `String`, a `char` a `Char`;
* a `std::vector<uint8_t>` is a `List Nat`;
* a C++ exception is the `Except.error` branch of the result;
* `std::map<std::string, time_point>` is the list of its entries in ascending
  key order, `std::set<std::string>` a list of its elements;
* a `steady_clock::time_point` is its tick count, an `Int`.
-/

namespace MiniPGW

/-! ## Identity codec -/

/-- The ways in which the two conversion functions leave without a result.  The
first five are the `std::invalid_argument` exceptions of the source, in order of
appearance; `outOfRange` stands for a write past the end of the 8-byte vector
in `convertImsiToBcd` (an input of more than 16 characters), which the source
does not guard against. -/
inductive CodecError where
  | invalidLength
  | invalidHighNibble
  | invalidLowNibble
  | invalidLastHighNibble
  | notDigit
  | outOfRange
  deriving DecidableEq, Repr

deriving instance DecidableEq for Except

/-- The C library test `isdigit` on the value of an `unsigned char`. -/
def isdigit (c : Char) : Bool := decide (48 ≤ c.toNat ∧ c.toNat ≤ 57)

/-- The `for` loop of `convertImsiToBcd`: `i` is the loop index, `bcd` the
vector as filled so far, the first argument the characters `imsi[i..]`. -/
def imsiToBcdLoop : List Char → Nat → List Nat → Except CodecError (List Nat)
  | [], _, bcd => .ok bcd
  | c :: rest, i, bcd =>
    if !isdigit c then .error .notDigit
    else
      let digit := c.toNat - 48
      if i / 2 < bcd.length then
        if i % 2 = 0 then
          imsiToBcdLoop rest (i + 1) (bcd.set (i / 2) ((digit <<< 4) % 256))
        else
          imsiToBcdLoop rest (i + 1)
            (bcd.set (i / 2) ((bcd.getD (i / 2) 0 ||| digit % 256) % 256))
      else .error .outOfRange

/-- Client side: `std::vector<uint8_t> convertImsiToBcd(const std::string& imsi)`. -/
def convertImsiToBcd (imsi : String) : Except CodecError (List Nat) :=
  match imsiToBcdLoop imsi.data 0 (List.replicate 8 0) with
  | .error e => .error e
  | .ok bcd => .ok (bcd.set 7 ((bcd.getD 7 0 ||| 0x0F) % 256))

/-- One pass through the body of the `for` loop of `convertBcdToImsi`, at
index `i`, with `imsi` the string built so far. -/
def bcdStep (bcd : List Nat) (imsi : String) (i : Nat) : Except CodecError String :=
  let high_nibble := (bcd.getD i 0 >>> 4) &&& 0x0F
  let low_nibble := bcd.getD i 0 &&& 0x0F
  if high_nibble > 9 then .error .invalidHighNibble
  else
    let imsi := imsi.push (Char.ofNat (48 + high_nibble))
    if low_nibble > 9 then .error .invalidLowNibble
    else .ok (imsi.push (Char.ofNat (48 + low_nibble)))

/-- Server side: `std::string convertBcdToImsi(const std::vector<uint8_t>& bcd)`. -/
def convertBcdToImsi (bcd : List Nat) : Except CodecError String :=
  if bcd.isEmpty || bcd.length != 8 then .error .invalidLength
  else
    match (List.range 7).foldlM (bcdStep bcd) "" with
    | .error e => .error e
    | .ok imsi =>
      let high_nibble_last := (bcd.getD 7 0 >>> 4) &&& 0x0F
      if high_nibble_last > 9 then .error .invalidLastHighNibble
      else .ok (imsi.push (Char.ofNat (48 + high_nibble_last)))

/-- The decimal value of the character at position `i` of `s` (`s[i] - '0'`). -/
def digitAt (s : String) (i : Nat) : Nat := (s.data.getD i '0').toNat - 48

/-- The `i`-th nibble of a byte sequence, counted high nibble first:
nibble `2k` is the high half of byte `k`, nibble `2k+1` its low half. -/
def nibbleAt (b : List Nat) (i : Nat) : Nat :=
  if i % 2 = 0 then b.getD (i / 2) 0 / 16 % 16 else b.getD (i / 2) 0 % 16

/-- The characters the decoder appends for the bytes with indices in `is`. -/
def nibbleChars (bcd : List Nat) (is : List Nat) : List Char :=
  is.flatMap fun i =>
    [Char.ofNat (48 + nibbleAt bcd (2 * i)), Char.ofNat (48 + nibbleAt bcd (2 * i + 1))]

/-- Every element of the sequence is a byte. -/
def IsBytes (b : List Nat) : Prop := ∀ x ∈ b, x < 256

instance IsBytes.decidable (b : List Nat) : Decidable (IsBytes b) :=
  inferInstanceAs (Decidable (∀ x ∈ b, x < 256))

/-- A string of exactly 15 decimal digits. -/
def IsImsi (s : String) : Prop := s.data.length = 15 ∧ ∀ c ∈ s.data, isdigit c = true

instance IsImsi.decidable (s : String) : Decidable (IsImsi s) :=
  inferInstanceAs (Decidable (s.data.length = 15 ∧ ∀ c ∈ s.data, isdigit c = true))

/-! ## Session table, blacklist and CDR stream -/

/-- A reading of `std::chrono::steady_clock`, in ticks. -/
abbrev TimePoint := Int

/-- Ticks of `steady_clock` in one second (the clock counts nanoseconds). -/
def ticksPerSecond : Int := 1000000000

/-- The three event words written to the CDR file. -/
inductive CdrEvent where
  | create
  | deleted
  | deleteWithShutdown
  deriving DecidableEq, Repr

/-- One line `<stamp>,<imsi>,<event>` of the CDR file; `stamp` is the local
time as formatted by `std::put_time`. -/
structure CdrRecord where
  stamp : String
  imsi : String
  event : CdrEvent
  deriving DecidableEq, Repr

/-- The table `std::map<std::string, time_point> sessions`: its entries in
iteration order, which for a `std::map` is ascending key order. -/
abbrev Sessions := List (String × TimePoint)

/-- The keys of the table, in iteration order. -/
def Sessions.keys (m : Sessions) : List String := m.map Prod.fst

/-- The key order `std::less<std::string>` of the table: lexicographic
comparison of the character sequences. -/
def keyLess (a b : String) : Prop := a.data < b.data

instance keyLess.decidable (a b : String) : Decidable (keyLess a b) :=
  inferInstanceAs (Decidable (a.data < b.data))

/-- The invariant of `std::map`: keys strictly ascending (so pairwise distinct). -/
def Sessions.WF (m : Sessions) : Prop := (Sessions.keys m).Pairwise keyLess

instance Sessions.WF.decidable (m : Sessions) : Decidable (Sessions.WF m) :=
  inferInstanceAs (Decidable ((Sessions.keys m).Pairwise keyLess))

/-- The member `sessions.count(key)`. -/
def Sessions.count (m : Sessions) (key : String) : Nat :=
  if m.any (fun e => e.1 == key) then 1 else 0

/-- The assignment `sessions[key] = value`: overwrite the entry of `key`, or
insert a new entry at its place in key order. -/
def Sessions.assign : Sessions → String → TimePoint → Sessions
  | [], key, value => [(key, value)]
  | (k, v) :: rest, key, value =>
    if keyLess key k then (key, value) :: (k, v) :: rest
    else if key = k then (key, value) :: rest
    else (k, v) :: Sessions.assign rest key value

/-- The member `sessions.erase(key)`: remove the elements whose key is `key`. -/
def Sessions.erase (m : Sessions) (key : String) : Sessions :=
  m.filter (fun e => e.1 != key)

/-- The member `blacklist.count(key)` of `std::set<std::string>`. -/
def setCount (blacklist : List String) (key : String) : Nat :=
  if key ∈ blacklist then 1 else 0

/-- The shared state of the server as far as sessions are concerned: the
session table and the records appended to the CDR file so far. -/
structure Server where
  sessions : Sessions
  cdr : List CdrRecord
  deriving DecidableEq, Repr

/-- The fields of `ServerConfig` read by the admission block and the deleter. -/
structure Config where
  blacklist : List String
  session_timeout_sec : Int
  graceful_shutdown_rate : Int

/-- The first `n` bytes of a string literal, as handed to `sendto`. -/
def literalBytes (s : String) (n : Nat) : String := ⟨s.data.take n⟩

/-! ## UDP receiver -/

/-- The admission block of `handleUdp` (under the table lock), for a decoded
identity `imsi`; `now` is `steady_clock::now()`, `stamp` the formatted local
time.  Returns the new state and the reply handed to `sendto`. -/
def admission (blacklist : List String) (now : TimePoint) (stamp : String)
    (imsi : String) (s : Server) : Server × String :=
  if setCount blacklist imsi != 0 || Sessions.count s.sessions imsi != 0 then
    (s, literalBytes "rejected" 8)
  else
    ({ sessions := Sessions.assign s.sessions imsi now,
       cdr := s.cdr ++ [⟨stamp, imsi, .create⟩] },
     literalBytes "created" 7)

/-- What `recvfrom` delivers: a failure (`n < 0`, with `errno`), or a datagram. -/
inductive Recv where
  | failed (errno : Nat)
  | datagram (payload : List Nat)

/-- The return value `n` of `recvfrom(sock, buffer, sizeof(buffer), ...)` with
`sizeof(buffer) = 8`: the number of bytes stored, or `-1`. -/
def Recv.n : Recv → Int
  | .failed _ => -1
  | .datagram payload => (min payload.length 8 : Nat)

/-- The 8-byte `buffer` after `recvfrom`: the first `n` bytes are overwritten
with the datagram (cut to 8 bytes), the others keep what they held. -/
def Recv.fill (buffer : List Nat) : Recv → List Nat
  | .failed _ => buffer
  | .datagram payload => payload.take 8 ++ buffer.drop (min payload.length 8)

/-- Outcome of one pass through the receive loop. -/
structure Iteration where
  server : Server
  reply : Option String
  leaves : Bool
  deriving DecidableEq, Repr

/-- One pass through the `while (true)` loop of `handleUdp`: `buffer` is what
the 8 bytes of `char buffer[8]` hold before `recvfrom`, `r` what `recvfrom`
delivers. -/
def udpIteration (blacklist : List String) (shutting_down : Bool) (now : TimePoint)
    (stamp : String) (buffer : List Nat) (r : Recv) (s : Server) : Iteration :=
  let n := r.n
  let imsi_bcd := (r.fill buffer).take 8
  if shutting_down then ⟨s, none, true⟩
  else if n < 0 then ⟨s, none, false⟩
  else
    match convertBcdToImsi imsi_bcd with
    | .error _ => ⟨s, none, false⟩
    | .ok imsi =>
      let (s', reply) := admission blacklist now stamp imsi s
      ⟨s', some reply, false⟩

/-! ## Session deleter -/

/-- Phase A, the loop that fills `imsi_delete_list`. -/
def expiredList (session_timeout_sec : Int) (now : TimePoint) : Sessions → List String
  | [] => []
  | (imsi, creation_time) :: rest =>
    if now - creation_time > session_timeout_sec * ticksPerSecond then
      imsi :: expiredList session_timeout_sec now rest
    else expiredList session_timeout_sec now rest

/-- Phase A, the loop over `imsi_delete_list`: write the `deleted` record, then
erase.  `k` counts the passes; `stamp k` is the local time read in pass `k`. -/
def deleteExpired (stamp : Nat → String) : List String → Nat → Server → Server
  | [], _, s => s
  | imsi :: rest, k, s =>
    deleteExpired stamp rest (k + 1)
      { sessions := Sessions.erase s.sessions imsi,
        cdr := s.cdr ++ [⟨stamp k, imsi, .deleted⟩] }

/-- One pass through the steady-state loop of `sessionDeleter` after its
sleep, as one step. -/
def sweep (session_timeout_sec : Int) (now : TimePoint) (stamp : Nat → String)
    (s : Server) : Server :=
  deleteExpired stamp (expiredList session_timeout_sec now s.sessions) 0 s

/-- Phase B, the loop that fills `delete_list`; `counter` is the `int counter`. -/
def firstBatch (graceful_shutdown_rate : Int) : Sessions → Int → List String
  | [], _ => []
  | (imsi, _) :: rest, counter =>
    if counter ≥ graceful_shutdown_rate then []
    else imsi :: firstBatch graceful_shutdown_rate rest (counter + 1)

/-- Phase B, the loop over `delete_list`: write `delete with shutdown`, erase. -/
def deleteBatch (stamp : String) : List String → Server → Server
  | [], s => s
  | imsi :: rest, s =>
    deleteBatch stamp rest
      { sessions := Sessions.erase s.sessions imsi,
        cdr := s.cdr ++ [⟨stamp, imsi, .deleteWithShutdown⟩] }

/-- One pass through the graceful-drain loop, as one step (the pass that finds
the table empty changes nothing). -/
def drainStep (graceful_shutdown_rate : Int) (stamp : String) (s : Server) : Server :=
  if s.sessions.isEmpty then s
  else deleteBatch stamp (firstBatch graceful_shutdown_rate s.sessions 0) s

/-- The graceful-drain loop.  `fuel` bounds the number of passes (the loop
head is evaluated at most `fuel` times), `stamp k` is the local time read in
pass `k`; the result is the final state together with the `delete_list` of
every pass, in order.  `none`: the loop is still running after `fuel` passes. -/
def drainLoop (graceful_shutdown_rate : Int) (stamp : Nat → String) :
    Nat → Nat → Server → Option (Server × List (List String))
  | 0, _, _ => none
  | fuel + 1, k, s =>
    if s.sessions.isEmpty then some (s, [])
    else
      let delete_list := firstBatch graceful_shutdown_rate s.sessions 0
      match drainLoop graceful_shutdown_rate stamp fuel (k + 1)
          (deleteBatch (stamp k) delete_list s) with
      | none => none
      | some (s', batches) => some (s', delete_list :: batches)

/-! ## Runs of the server -/

/-- The steps that change the table or the CDR stream. -/
inductive Action where
  | admission (now : TimePoint) (stamp : String) (imsi : String)
  | sweep (now : TimePoint) (stamp : Nat → String)
  | drain (stamp : String)

/-- The effect of one step. -/
def step (cfg : Config) (s : Server) : Action → Server
  | .admission now stamp imsi => (admission cfg.blacklist now stamp imsi s).1
  | .sweep now stamp => sweep cfg.session_timeout_sec now stamp s
  | .drain stamp => drainStep cfg.graceful_shutdown_rate stamp s

/-- The state at start-up: empty table, nothing written. -/
def Server.init : Server := ⟨[], []⟩

/-- The state after a sequence of steps from start-up. -/
def run (cfg : Config) (acts : List Action) : Server := acts.foldl (step cfg) Server.init

/-- A deletion event: `deleted` or `delete with shutdown`. -/
def CdrEvent.isDeletion : CdrEvent → Bool
  | .create => false
  | _ => true

/-- The events recorded for identity `x`, in stream order. -/
def eventsFor (x : String) (cdr : List CdrRecord) : List CdrEvent :=
  (cdr.filter (fun r => r.imsi == x)).map CdrRecord.event

/-- The list reads create, deletion, create, deletion, ... from its start. -/
def alternates : List CdrEvent → Bool
  | [] => true
  | [e] => e == .create
  | e₁ :: e₂ :: rest => e₁ == .create && e₂.isDeletion && alternates rest

/-- Number of `create` records for `x`. -/
def creates (x : String) (cdr : List CdrRecord) : Nat :=
  (eventsFor x cdr).countP (fun e => e == .create)

/-- Number of deletion records for `x`. -/
def deletions (x : String) (cdr : List CdrRecord) : Nat :=
  (eventsFor x cdr).countP CdrEvent.isDeletion

/-- The identity and event of a record, without its time stamp. -/
def CdrRecord.entry (r : CdrRecord) : String × CdrEvent := (r.imsi, r.event)

/-- The session `e` is older than the timeout at instant `now`. -/
def isExpired (session_timeout_sec : Int) (now : TimePoint) (e : String × TimePoint) : Bool :=
  decide (now - e.2 > session_timeout_sec * ticksPerSecond)

/-- The invariant carried along a run, for one identity `x`: the records of `x`
alternate, and `x` has one `create` more than deletions exactly when it is in
the table. -/
def Balanced (s : Server) (x : String) : Prop :=
  alternates (eventsFor x s.cdr) = true ∧
  creates x s.cdr = deletions x s.cdr + (if x ∈ Sessions.keys s.sessions then 1 else 0)

/-- A table of ten sessions, all created at instant 0. -/
def tenSessions : Sessions :=
  [("250010000000000", 0), ("250010000000001", 0), ("250010000000002", 0),
   ("250010000000003", 0), ("250010000000004", 0), ("250010000000005", 0),
   ("250010000000006", 0), ("250010000000007", 0), ("250010000000008", 0),
   ("250010000000009", 0)]

/-! ## Properties -/

theorem keyLess_irrefl (a : String) : ¬ keyLess a a := lt_irrefl a.data

theorem keyLess_trans {a b c : String} (h₁ : keyLess a b) (h₂ : keyLess b c) : keyLess a c :=
  @lt_trans (List Char) _ _ _ _ h₁ h₂

theorem keyLess_total {a b : String} (h₁ : ¬ keyLess a b) (h₂ : a ≠ b) : keyLess b a := by
  rcases lt_trichotomy a.data b.data with h | h | h
  · exact absurd h h₁
  · exact absurd (String.ext h) h₂
  · exact h

theorem pack_digits : ∀ a < 10, ∀ b < 10, ((a <<< 4) % 256 ||| b % 256) % 256 = a * 16 + b := by
  decide

theorem pack_last : ∀ a < 10, ((a <<< 4) % 256 ||| 15) % 256 = a * 16 + 15 := by
  decide

theorem shift_mask (x : Nat) : (x >>> 4) &&& 0x0F = x / 16 % 16 := by
  rw [Nat.shiftRight_eq_div_pow]
  exact Nat.and_pow_two_sub_one_eq_mod (x / 2 ^ 4) 4

theorem mask_low (x : Nat) : x &&& 0x0F = x % 16 :=
  Nat.and_pow_two_sub_one_eq_mod x 4

theorem isdigit_iff (c : Char) : isdigit c = true ↔ 48 ≤ c.toNat ∧ c.toNat ≤ 57 := by
  simp [isdigit]

theorem digitChar_toNat : ∀ n < 10, (Char.ofNat (48 + n)).toNat = 48 + n := by
  decide

theorem isdigit_digitChar (n : Nat) (h : n ≤ 9) : isdigit (Char.ofNat (48 + n)) = true := by
  rw [isdigit_iff, digitChar_toNat n (by omega)]
  omega

theorem digitChar_value (c : Char) (h : isdigit c = true) :
    Char.ofNat (48 + (c.toNat - 48)) = c := by
  rw [isdigit_iff] at h
  rw [show 48 + (c.toNat - 48) = c.toNat by omega]
  exact Char.ofNat_toNat c

theorem shift4 (x : Nat) : x >>> 4 = x / 16 := Nat.shiftRight_eq_div_pow x 4

/-- The two characters appended by the decoder for byte `i`. -/
theorem bcdStep_ok (bcd : List Nat) (imsi : String) (i : Nat)
    (h : nibbleAt bcd (2 * i) ≤ 9 ∧ nibbleAt bcd (2 * i + 1) ≤ 9) :
    bcdStep bcd imsi i = .ok ⟨imsi.data ++
      [Char.ofNat (48 + nibbleAt bcd (2 * i)), Char.ofNat (48 + nibbleAt bcd (2 * i + 1))]⟩ := by
  have e1 : (2 * i) % 2 = 0 := by omega
  have e2 : (2 * i + 1) % 2 = 1 := by omega
  have e3 : (2 * i) / 2 = i := by omega
  have e4 : (2 * i + 1) / 2 = i := by omega
  simp only [nibbleAt, e1, e2, e3, e4, if_true, one_ne_zero, if_false] at h ⊢
  simp only [bcdStep, shift4, mask_low, gt_iff_lt, not_lt.mpr h.1, not_lt.mpr h.2, if_false]
  congr 1
  apply String.ext
  simp [String.data_push]

theorem bcdStep_error (bcd : List Nat) (imsi : String) (i : Nat)
    (h : ¬ (nibbleAt bcd (2 * i) ≤ 9 ∧ nibbleAt bcd (2 * i + 1) ≤ 9)) :
    ∃ e, bcdStep bcd imsi i = .error e := by
  have e1 : (2 * i) % 2 = 0 := by omega
  have e2 : (2 * i + 1) % 2 = 1 := by omega
  have e3 : (2 * i) / 2 = i := by omega
  have e4 : (2 * i + 1) / 2 = i := by omega
  simp only [nibbleAt, e1, e2, e3, e4, if_true, one_ne_zero, if_false] at h
  simp only [bcdStep, shift4, mask_low, gt_iff_lt]
  by_cases h1 : 9 < bcd.getD i 0 / 16 % 16
  · exact ⟨_, if_pos h1⟩
  · rw [if_neg h1]
    have h2 : 9 < bcd.getD i 0 % 16 := by omega
    exact ⟨_, if_pos h2⟩

theorem foldlM_bcdStep_ok (bcd : List Nat) (is : List Nat) (imsi : String)
    (h : ∀ i ∈ is, nibbleAt bcd (2 * i) ≤ 9 ∧ nibbleAt bcd (2 * i + 1) ≤ 9) :
    is.foldlM (bcdStep bcd) imsi = .ok ⟨imsi.data ++ nibbleChars bcd is⟩ := by
  induction is generalizing imsi with
  | nil => simp [nibbleChars]; rfl
  | cons i rest ih =>
    rw [List.foldlM_cons, bcdStep_ok bcd imsi i (h i (List.mem_cons_self _ _))]
    have := ih ⟨imsi.data ++ [Char.ofNat (48 + nibbleAt bcd (2 * i)),
      Char.ofNat (48 + nibbleAt bcd (2 * i + 1))]⟩ (fun j hj => h j (List.mem_cons_of_mem _ hj))
    simp only [bind, Except.bind]
    rw [this]
    simp [nibbleChars, List.flatMap_cons]

theorem foldlM_bcdStep_error (bcd : List Nat) (is : List Nat) (imsi : String)
    (h : ∃ i ∈ is, ¬ (nibbleAt bcd (2 * i) ≤ 9 ∧ nibbleAt bcd (2 * i + 1) ≤ 9)) :
    ∃ e, is.foldlM (bcdStep bcd) imsi = .error e := by
  induction is generalizing imsi with
  | nil => simp at h
  | cons i rest ih =>
    rw [List.foldlM_cons]
    by_cases hi : nibbleAt bcd (2 * i) ≤ 9 ∧ nibbleAt bcd (2 * i + 1) ≤ 9
    · rw [bcdStep_ok bcd imsi i hi]
      simp only [bind, Except.bind]
      apply ih
      obtain ⟨j, hj, hbad⟩ := h
      rcases List.mem_cons.mp hj with rfl | hj'
      · exact absurd hi hbad
      · exact ⟨j, hj', hbad⟩
    · obtain ⟨e, he⟩ := bcdStep_error bcd imsi i hi
      rw [he]
      exact ⟨e, rfl⟩

theorem convertBcdToImsi_of_length (b : List Nat) (hlen : b.length = 8) :
    convertBcdToImsi b =
      match (List.range 7).foldlM (bcdStep b) "" with
      | .error e => .error e
      | .ok imsi =>
        if (b.getD 7 0 >>> 4) &&& 0x0F > 9 then .error .invalidLastHighNibble
        else .ok (imsi.push (Char.ofNat (48 + ((b.getD 7 0 >>> 4) &&& 0x0F)))) := by
  have hne : b ≠ [] := by
    intro h
    rw [h] at hlen
    simp at hlen
  simp [convertBcdToImsi, hlen, hne]

theorem nibbleAt_14 (b : List Nat) : nibbleAt b 14 = (b.getD 7 0 >>> 4) &&& 0x0F := by
  simp [nibbleAt, shift_mask]

theorem convertBcdToImsi_ok (b : List Nat) (hlen : b.length = 8)
    (h : ∀ i, i < 15 → nibbleAt b i ≤ 9) :
    convertBcdToImsi b =
      .ok ⟨nibbleChars b (List.range 7) ++ [Char.ofNat (48 + nibbleAt b 14)]⟩ := by
  have hfold := foldlM_bcdStep_ok b (List.range 7) ""
    (fun i hi => by
      have := List.mem_range.mp hi
      exact ⟨h _ (by omega), h _ (by omega)⟩)
  rw [convertBcdToImsi_of_length b hlen, hfold, ← nibbleAt_14]
  have h14 := h 14 (by omega)
  simp only [gt_iff_lt, not_lt.mpr h14, if_false]
  congr 1

theorem convertBcdToImsi_error (b : List Nat) (hlen : b.length = 8)
    (h : ∃ i, i < 15 ∧ 9 < nibbleAt b i) : ∃ e, convertBcdToImsi b = .error e := by
  rw [convertBcdToImsi_of_length b hlen, ← nibbleAt_14]
  by_cases hall : ∀ j ∈ List.range 7, nibbleAt b (2 * j) ≤ 9 ∧ nibbleAt b (2 * j + 1) ≤ 9
  · rw [foldlM_bcdStep_ok b (List.range 7) "" hall]
    obtain ⟨i, hi, hbad⟩ := h
    have h14 : i = 14 := by
      by_contra hne
      have hj := hall (i / 2) (List.mem_range.mpr (by omega))
      rcases Nat.mod_two_eq_zero_or_one i with hm | hm
      · have : 2 * (i / 2) = i := by omega
        rw [this] at hj
        omega
      · have : 2 * (i / 2) + 1 = i := by omega
        rw [this] at hj
        omega
    subst h14
    exact ⟨.invalidLastHighNibble, by simp only [gt_iff_lt, hbad, if_true]⟩
  · push_neg at hall
    obtain ⟨j, hj, hbad⟩ := hall
    obtain ⟨e, he⟩ := foldlM_bcdStep_error b (List.range 7) ""
      ⟨j, hj, fun hc => absurd (hbad hc.1) (not_lt.mpr hc.2)⟩
    rw [he]
    exact ⟨e, rfl⟩

theorem foldlM_bcdStep_congr (b b' : List Nat) (is : List Nat) (imsi : String)
    (h : ∀ i ∈ is, b'.getD i 0 = b.getD i 0) :
    is.foldlM (bcdStep b') imsi = is.foldlM (bcdStep b) imsi := by
  induction is generalizing imsi with
  | nil => rfl
  | cons i rest ih =>
    have hstep : bcdStep b' imsi i = bcdStep b imsi i := by
      simp only [bcdStep, h i (List.mem_cons_self _ _)]
    rw [List.foldlM_cons, List.foldlM_cons, hstep]
    cases bcdStep b imsi i with
    | error e => rfl
    | ok s => exact ih s (fun j hj => h j (List.mem_cons_of_mem _ hj))

theorem getD_of_take_eq (b b' : List Nat) (h : b'.take 7 = b.take 7) (i : Nat) (hi : i < 7) :
    b'.getD i 0 = b.getD i 0 := by
  have h1 : (b'.take 7)[i]? = b'[i]? := by rw [List.getElem?_take, if_pos hi]
  have h2 : (b.take 7)[i]? = b[i]? := by rw [List.getElem?_take, if_pos hi]
  rw [List.getD_eq_getElem?_getD, List.getD_eq_getElem?_getD, ← h1, ← h2, h]

theorem nibbleChars_length (b : List Nat) (is : List Nat) :
    (nibbleChars b is).length = 2 * is.length := by
  induction is with
  | nil => rfl
  | cons i rest ih =>
    simp only [nibbleChars, List.flatMap_cons, List.length_append, List.length_cons,
      List.length_nil] at ih ⊢
    omega

theorem nibbleChars_isdigit (b : List Nat) (is : List Nat)
    (h : ∀ i ∈ is, nibbleAt b (2 * i) ≤ 9 ∧ nibbleAt b (2 * i + 1) ≤ 9) :
    ∀ c ∈ nibbleChars b is, isdigit c = true := by
  intro c hc
  simp only [nibbleChars, List.mem_flatMap, List.mem_cons, List.mem_singleton,
    List.not_mem_nil, or_false] at hc
  obtain ⟨i, hi, rfl | rfl⟩ := hc
  · exact isdigit_digitChar _ (h i hi).1
  · exact isdigit_digitChar _ (h i hi).2

/-- Claim C4: `convertBcdToImsi` fails exactly when the length is not 8 or one of the
first 15 nibbles exceeds 9; a result is always a string of 15 decimal digits;
and two inputs of equal length that agree on bytes 0..6 and on the high nibble
of byte 7 (so differ at most in the padding nibble) give the same outcome. -/
theorem convertBcdToImsi_fails_iff (b : List Nat) :
    ((∃ e, convertBcdToImsi b = .error e) ↔
      (b.length ≠ 8 ∨ ∃ i, i < 15 ∧ 9 < nibbleAt b i)) ∧
    (∀ s, convertBcdToImsi b = .ok s → IsImsi s) ∧
    (∀ b' : List Nat, b'.length = b.length → b'.take 7 = b.take 7 →
      nibbleAt b' 14 = nibbleAt b 14 → convertBcdToImsi b' = convertBcdToImsi b) := by
  refine ⟨⟨?_, ?_⟩, ?_, ?_⟩
  · rintro ⟨e, he⟩
    by_contra hcon
    push_neg at hcon
    rw [convertBcdToImsi_ok b hcon.1 hcon.2] at he
    cases he
  · rintro (hlen | hbad)
    · refine ⟨.invalidLength, ?_⟩
      simp [convertBcdToImsi, hlen]
    · by_cases hlen : b.length = 8
      · exact convertBcdToImsi_error b hlen hbad
      · refine ⟨.invalidLength, ?_⟩
        simp [convertBcdToImsi, hlen]
  · intro s hs
    by_cases hgood : b.length = 8 ∧ ∀ i, i < 15 → nibbleAt b i ≤ 9
    · rw [convertBcdToImsi_ok b hgood.1 hgood.2] at hs
      cases hs
      have hall : ∀ i ∈ List.range 7, nibbleAt b (2 * i) ≤ 9 ∧ nibbleAt b (2 * i + 1) ≤ 9 :=
        fun i hi => by
          have := List.mem_range.mp hi
          exact ⟨hgood.2 _ (by omega), hgood.2 _ (by omega)⟩
      refine ⟨?_, ?_⟩
      · simp [nibbleChars_length]
      · intro c hc
        rcases List.mem_append.mp hc with hc | hc
        · exact nibbleChars_isdigit b _ hall c hc
        · rw [List.mem_singleton.mp hc]
          exact isdigit_digitChar _ (hgood.2 14 (by omega))
    · exfalso
      have : ∃ e, convertBcdToImsi b = .error e := by
        by_cases hlen : b.length = 8
        · apply convertBcdToImsi_error b hlen
          by_contra hcon
          push_neg at hcon
          exact hgood ⟨hlen, hcon⟩
        · exact ⟨.invalidLength, by simp [convertBcdToImsi, hlen]⟩
      obtain ⟨e, he⟩ := this
      rw [he] at hs
      cases hs
  · intro b' hlen htake h14
    by_cases h8 : b.length = 8
    · rw [convertBcdToImsi_of_length b h8, convertBcdToImsi_of_length b' (hlen.trans h8),
        ← nibbleAt_14, ← nibbleAt_14, h14,
        foldlM_bcdStep_congr b b' (List.range 7) ""
          (fun i hi => getD_of_take_eq b b' htake i (List.mem_range.mp hi))]
    · have h8' : ¬ b'.length = 8 := by rw [hlen]; exact h8
      simp [convertBcdToImsi, h8, h8']

/-- Witness for claim C4 at a valid datagram, with a second datagram that carries `0`
in place of the padding nibble. -/
theorem convertBcdToImsi_fails_iff_witness :
    IsImsi "250010123456789" ∧
    convertBcdToImsi [0x25, 0, 0x10, 0x12, 0x34, 0x56, 0x78, 0x90] =
      convertBcdToImsi [0x25, 0, 0x10, 0x12, 0x34, 0x56, 0x78, 0x9F] :=
  ⟨(convertBcdToImsi_fails_iff [0x25, 0, 0x10, 0x12, 0x34, 0x56, 0x78, 0x9F]).2.1
      "250010123456789" (by decide),
   (convertBcdToImsi_fails_iff [0x25, 0, 0x10, 0x12, 0x34, 0x56, 0x78, 0x9F]).2.2
      [0x25, 0, 0x10, 0x12, 0x34, 0x56, 0x78, 0x90] (by decide) (by decide) (by decide)⟩

theorem digit_le (c : Char) (h : isdigit c = true) : c.toNat - 48 ≤ 9 := by
  rw [isdigit_iff] at h
  omega

theorem imsiToBcdLoop_pair (a b : Char) (rest : List Char) (i : Nat) (bcd : List Nat)
    (ha : isdigit a = true) (hb : isdigit b = true) (hi : i % 2 = 0)
    (hlen : i / 2 < bcd.length) :
    imsiToBcdLoop (a :: b :: rest) i bcd =
      imsiToBcdLoop rest (i + 2) (bcd.set (i / 2) ((a.toNat - 48) * 16 + (b.toNat - 48))) := by
  have hi1 : (i + 1) % 2 ≠ 0 := by omega
  have hi2 : (i + 1) / 2 = i / 2 := by omega
  have hget : (bcd.set (i / 2) (((a.toNat - 48) <<< 4) % 256)).getD (i / 2) 0
      = ((a.toNat - 48) <<< 4) % 256 := by
    rw [List.getD_eq_getElem?_getD]
    simp [hlen]
  simp only [imsiToBcdLoop, ha, hb, Bool.not_true, Bool.false_eq_true, if_false, hi, if_true,
    hlen, hi1, hi2, List.length_set, hget, List.set_set]
  rw [pack_digits _ (by have := digit_le a ha; omega) _ (by have := digit_le b hb; omega)]

theorem imsiToBcdLoop_last (a : Char) (i : Nat) (bcd : List Nat)
    (ha : isdigit a = true) (hi : i % 2 = 0) (hlen : i / 2 < bcd.length) :
    imsiToBcdLoop [a] i bcd = .ok (bcd.set (i / 2) (((a.toNat - 48) <<< 4) % 256)) := by
  simp only [imsiToBcdLoop, ha, Bool.not_true, Bool.false_eq_true, if_false, hi, if_true, hlen]

theorem convertImsiToBcd_explicit (c0 c1 c2 c3 c4 c5 c6 c7 c8 c9 c10 c11 c12 c13 c14 : Char)
    (h : ∀ c ∈ [c0, c1, c2, c3, c4, c5, c6, c7, c8, c9, c10, c11, c12, c13, c14],
      isdigit c = true) :
    convertImsiToBcd ⟨[c0, c1, c2, c3, c4, c5, c6, c7, c8, c9, c10, c11, c12, c13, c14]⟩ =
      .ok [(c0.toNat - 48) * 16 + (c1.toNat - 48), (c2.toNat - 48) * 16 + (c3.toNat - 48),
        (c4.toNat - 48) * 16 + (c5.toNat - 48), (c6.toNat - 48) * 16 + (c7.toNat - 48),
        (c8.toNat - 48) * 16 + (c9.toNat - 48), (c10.toNat - 48) * 16 + (c11.toNat - 48),
        (c12.toNat - 48) * 16 + (c13.toNat - 48), (c14.toNat - 48) * 16 + 15] := by
  simp only [List.mem_cons, List.mem_singleton, List.not_mem_nil, or_false, forall_eq_or_imp,
    forall_eq] at h
  obtain ⟨h0, h1, h2, h3, h4, h5, h6, h7, h8, h9, h10, h11, h12, h13, h14⟩ := h
  have e : imsiToBcdLoop [c0, c1, c2, c3, c4, c5, c6, c7, c8, c9, c10, c11, c12, c13, c14] 0
      (List.replicate 8 0) =
      .ok [(c0.toNat - 48) * 16 + (c1.toNat - 48), (c2.toNat - 48) * 16 + (c3.toNat - 48),
        (c4.toNat - 48) * 16 + (c5.toNat - 48), (c6.toNat - 48) * 16 + (c7.toNat - 48),
        (c8.toNat - 48) * 16 + (c9.toNat - 48), (c10.toNat - 48) * 16 + (c11.toNat - 48),
        (c12.toNat - 48) * 16 + (c13.toNat - 48), ((c14.toNat - 48) <<< 4) % 256] := by
    rw [imsiToBcdLoop_pair c0 c1 _ 0 _ h0 h1 rfl (by decide),
      imsiToBcdLoop_pair c2 c3 _ 2 _ h2 h3 rfl (by simp),
      imsiToBcdLoop_pair c4 c5 _ 4 _ h4 h5 rfl (by simp),
      imsiToBcdLoop_pair c6 c7 _ 6 _ h6 h7 rfl (by simp),
      imsiToBcdLoop_pair c8 c9 _ 8 _ h8 h9 rfl (by simp),
      imsiToBcdLoop_pair c10 c11 _ 10 _ h10 h11 rfl (by simp),
      imsiToBcdLoop_pair c12 c13 _ 12 _ h12 h13 rfl (by simp),
      imsiToBcdLoop_last c14 14 _ h14 rfl (by simp)]
    rfl
  simp only [convertImsiToBcd, e]
  have := pack_last (c14.toNat - 48) (by have := digit_le c14 h14; omega)
  simp only [List.set, List.getD_cons_succ, List.getD_cons_zero]
  rw [this]

theorem exists_of_length_15 {α : Type} (l : List α) (h : l.length = 15) :
    ∃ c0 c1 c2 c3 c4 c5 c6 c7 c8 c9 c10 c11 c12 c13 c14,
      l = [c0, c1, c2, c3, c4, c5, c6, c7, c8, c9, c10, c11, c12, c13, c14] := by
  obtain ⟨c0, l, rfl⟩ := List.exists_cons_of_length_eq_add_one h
  obtain ⟨c1, l, rfl⟩ := List.exists_cons_of_length_eq_add_one (Nat.succ.inj h)
  obtain ⟨c2, l, rfl⟩ := List.exists_cons_of_length_eq_add_one (by simpa using h : l.length = 12 + 1)
  obtain ⟨c3, l, rfl⟩ := List.exists_cons_of_length_eq_add_one (by simpa using h : l.length = 11 + 1)
  obtain ⟨c4, l, rfl⟩ := List.exists_cons_of_length_eq_add_one (by simpa using h : l.length = 10 + 1)
  obtain ⟨c5, l, rfl⟩ := List.exists_cons_of_length_eq_add_one (by simpa using h : l.length = 9 + 1)
  obtain ⟨c6, l, rfl⟩ := List.exists_cons_of_length_eq_add_one (by simpa using h : l.length = 8 + 1)
  obtain ⟨c7, l, rfl⟩ := List.exists_cons_of_length_eq_add_one (by simpa using h : l.length = 7 + 1)
  obtain ⟨c8, l, rfl⟩ := List.exists_cons_of_length_eq_add_one (by simpa using h : l.length = 6 + 1)
  obtain ⟨c9, l, rfl⟩ := List.exists_cons_of_length_eq_add_one (by simpa using h : l.length = 5 + 1)
  obtain ⟨c10, l, rfl⟩ := List.exists_cons_of_length_eq_add_one (by simpa using h : l.length = 4 + 1)
  obtain ⟨c11, l, rfl⟩ := List.exists_cons_of_length_eq_add_one (by simpa using h : l.length = 3 + 1)
  obtain ⟨c12, l, rfl⟩ := List.exists_cons_of_length_eq_add_one (by simpa using h : l.length = 2 + 1)
  obtain ⟨c13, l, rfl⟩ := List.exists_cons_of_length_eq_add_one (by simpa using h : l.length = 1 + 1)
  obtain ⟨c14, l, rfl⟩ := List.exists_cons_of_length_eq_add_one (by simpa using h : l.length = 0 + 1)
  have hl : l = [] := List.length_eq_zero.mp (by simpa using h)
  subst hl
  exact ⟨c0, c1, c2, c3, c4, c5, c6, c7, c8, c9, c10, c11, c12, c13, c14, rfl⟩

theorem imsiToBcdLoop_notDigit (cs : List Char) (i : Nat) (bcd : List Nat)
    (hroom : i + cs.length ≤ 2 * bcd.length) (h : ∃ c ∈ cs, isdigit c = false) :
    imsiToBcdLoop cs i bcd = .error .notDigit := by
  induction cs generalizing i bcd with
  | nil => simp at h
  | cons c rest ih =>
    by_cases hc : isdigit c = true
    · have hrest : ∃ c ∈ rest, isdigit c = false := by
        obtain ⟨d, hd, hbad⟩ := h
        rcases List.mem_cons.mp hd with rfl | hd'
        · rw [hc] at hbad
          cases hbad
        · exact ⟨d, hd', hbad⟩
      have hlen : i / 2 < bcd.length := by
        simp only [List.length_cons] at hroom
        omega
      simp only [imsiToBcdLoop, hc, Bool.not_true, Bool.false_eq_true, if_false, hlen, if_true]
      split
      · exact ih _ _ (by simp only [List.length_cons, List.length_set] at hroom ⊢; omega) hrest
      · exact ih _ _ (by simp only [List.length_cons, List.length_set] at hroom ⊢; omega) hrest
    · simp [imsiToBcdLoop, hc]

/-- Claim C3: for a string of 15 decimal digits `convertImsiToBcd` returns exactly 8
bytes, byte `k` (for `k ≤ 6`) being `d(2k)*16 + d(2k+1)` and byte 7 being
`d14*16 + 0xF`; for a 15-character string with a character that is not a
decimal digit it throws (`IMSI char must be digit`) and returns no bytes. -/
theorem convertImsiToBcd_layout (s : String) (hlen : s.data.length = 15) :
    ((∀ c ∈ s.data, isdigit c = true) →
      ∃ bcd, convertImsiToBcd s = .ok bcd ∧ bcd.length = 8 ∧
        (∀ k, k < 7 → bcd.getD k 0 = digitAt s (2 * k) * 16 + digitAt s (2 * k + 1)) ∧
        bcd.getD 7 0 = digitAt s 14 * 16 + 0xF) ∧
    ((∃ c ∈ s.data, isdigit c = false) → convertImsiToBcd s = .error .notDigit) := by
  refine ⟨?_, ?_⟩
  · intro hdig
    obtain ⟨c0, c1, c2, c3, c4, c5, c6, c7, c8, c9, c10, c11, c12, c13, c14, hs⟩ :=
      exists_of_length_15 s.data hlen
    have hs' : s = ⟨[c0, c1, c2, c3, c4, c5, c6, c7, c8, c9, c10, c11, c12, c13, c14]⟩ :=
      String.ext hs
    subst hs'
    refine ⟨_, convertImsiToBcd_explicit c0 c1 c2 c3 c4 c5 c6 c7 c8 c9 c10 c11 c12 c13 c14 hdig,
      rfl, ?_, rfl⟩
    intro k hk
    interval_cases k <;> rfl
  · intro hbad
    have := imsiToBcdLoop_notDigit s.data 0 (List.replicate 8 0)
      (by rw [hlen]; simp) hbad
    simp only [convertImsiToBcd, this]

/-- Witness for claim C3: a digit string, and a string with a letter in it. -/
theorem convertImsiToBcd_layout_witness :
    (∃ bcd, convertImsiToBcd "250010123456789" = .ok bcd ∧ bcd.length = 8 ∧
        (∀ k, k < 7 → bcd.getD k 0 =
          digitAt "250010123456789" (2 * k) * 16 + digitAt "250010123456789" (2 * k + 1)) ∧
        bcd.getD 7 0 = digitAt "250010123456789" 14 * 16 + 0xF) ∧
    convertImsiToBcd "25001012345678x" = .error .notDigit :=
  ⟨(convertImsiToBcd_layout "250010123456789" (by decide)).1 (by decide),
   (convertImsiToBcd_layout "25001012345678x" (by decide)).2 (by decide)⟩

theorem convertBcdToImsi_packed (d0 d1 d2 d3 d4 d5 d6 d7 d8 d9 d10 d11 d12 d13 d14 p : Nat)
    (hd : ∀ d ∈ [d0, d1, d2, d3, d4, d5, d6, d7, d8, d9, d10, d11, d12, d13, d14], d ≤ 9)
    (hp : p < 16) :
    convertBcdToImsi [d0 * 16 + d1, d2 * 16 + d3, d4 * 16 + d5, d6 * 16 + d7, d8 * 16 + d9,
        d10 * 16 + d11, d12 * 16 + d13, d14 * 16 + p] =
      .ok ⟨[Char.ofNat (48 + d0), Char.ofNat (48 + d1), Char.ofNat (48 + d2),
        Char.ofNat (48 + d3), Char.ofNat (48 + d4), Char.ofNat (48 + d5), Char.ofNat (48 + d6),
        Char.ofNat (48 + d7), Char.ofNat (48 + d8), Char.ofNat (48 + d9), Char.ofNat (48 + d10),
        Char.ofNat (48 + d11), Char.ofNat (48 + d12), Char.ofNat (48 + d13),
        Char.ofNat (48 + d14)]⟩ := by
  simp only [List.mem_cons, List.mem_singleton, List.not_mem_nil, or_false, forall_eq_or_imp,
    forall_eq] at hd
  obtain ⟨h0, h1, h2, h3, h4, h5, h6, h7, h8, h9, h10, h11, h12, h13, h14⟩ := hd
  have hn : ∀ i, i < 15 →
      nibbleAt [d0 * 16 + d1, d2 * 16 + d3, d4 * 16 + d5, d6 * 16 + d7, d8 * 16 + d9,
        d10 * 16 + d11, d12 * 16 + d13, d14 * 16 + p] i =
      [d0, d1, d2, d3, d4, d5, d6, d7, d8, d9, d10, d11, d12, d13, d14].getD i 0 := by
    intro i hi
    interval_cases i <;> simp [nibbleAt] <;> omega
  have hok := convertBcdToImsi_ok [d0 * 16 + d1, d2 * 16 + d3, d4 * 16 + d5, d6 * 16 + d7,
    d8 * 16 + d9, d10 * 16 + d11, d12 * 16 + d13, d14 * 16 + p] rfl (by
      intro i hi
      rw [hn i hi]
      interval_cases i <;> simpa using by assumption)
  rw [hok]
  simp only [nibbleChars, List.range, List.range.loop, List.flatMap_cons, List.flatMap_nil,
    Nat.reduceMul, Nat.reduceAdd, List.cons_append, List.nil_append, List.append_nil,
    hn 0 (by omega), hn 1 (by omega), hn 2 (by omega), hn 3 (by omega), hn 4 (by omega),
    hn 5 (by omega), hn 6 (by omega), hn 7 (by omega), hn 8 (by omega), hn 9 (by omega),
    hn 10 (by omega), hn 11 (by omega), hn 12 (by omega), hn 13 (by omega), hn 14 (by omega),
    List.getD_cons_zero, List.getD_cons_succ]

/-- Claim C1: decoding the encoding of a string of exactly 15 decimal digits succeeds
and gives the string back. -/
theorem decode_encode (s : String) (h : IsImsi s) :
    ∃ bcd, convertImsiToBcd s = .ok bcd ∧ convertBcdToImsi bcd = .ok s := by
  obtain ⟨hlen, hdig⟩ := h
  obtain ⟨c0, c1, c2, c3, c4, c5, c6, c7, c8, c9, c10, c11, c12, c13, c14, hs⟩ :=
    exists_of_length_15 s.data hlen
  have hs' : s = ⟨[c0, c1, c2, c3, c4, c5, c6, c7, c8, c9, c10, c11, c12, c13, c14]⟩ :=
    String.ext hs
  subst hs'
  refine ⟨_, convertImsiToBcd_explicit c0 c1 c2 c3 c4 c5 c6 c7 c8 c9 c10 c11 c12 c13 c14 hdig, ?_⟩
  simp only [List.mem_cons, List.mem_singleton, List.not_mem_nil, or_false, forall_eq_or_imp,
    forall_eq] at hdig
  obtain ⟨h0, h1, h2, h3, h4, h5, h6, h7, h8, h9, h10, h11, h12, h13, h14⟩ := hdig
  rw [convertBcdToImsi_packed _ _ _ _ _ _ _ _ _ _ _ _ _ _ _ 15 (by
    simp only [List.mem_cons, List.mem_singleton, List.not_mem_nil, or_false, forall_eq_or_imp,
      forall_eq]
    exact ⟨digit_le _ h0, digit_le _ h1, digit_le _ h2, digit_le _ h3, digit_le _ h4,
      digit_le _ h5, digit_le _ h6, digit_le _ h7, digit_le _ h8, digit_le _ h9,
      digit_le _ h10, digit_le _ h11, digit_le _ h12, digit_le _ h13, digit_le _ h14⟩)
    (by omega)]
  rw [digitChar_value c0 h0, digitChar_value c1 h1, digitChar_value c2 h2,
    digitChar_value c3 h3, digitChar_value c4 h4, digitChar_value c5 h5,
    digitChar_value c6 h6, digitChar_value c7 h7, digitChar_value c8 h8,
    digitChar_value c9 h9, digitChar_value c10 h10, digitChar_value c11 h11,
    digitChar_value c12 h12, digitChar_value c13 h13, digitChar_value c14 h14]

/-- Witness for claim C1 at the identity `250010123456789`. -/
theorem decode_encode_witness :
    IsImsi "250010123456789" ∧
    ∃ bcd, convertImsiToBcd "250010123456789" = .ok bcd ∧
      convertBcdToImsi bcd = .ok "250010123456789" :=
  ⟨by decide, decode_encode "250010123456789" (by decide)⟩

theorem exists_of_length_8 {α : Type} (l : List α) (h : l.length = 8) :
    ∃ b0 b1 b2 b3 b4 b5 b6 b7, l = [b0, b1, b2, b3, b4, b5, b6, b7] := by
  obtain ⟨b0, l, rfl⟩ := List.exists_cons_of_length_eq_add_one h
  obtain ⟨b1, l, rfl⟩ := List.exists_cons_of_length_eq_add_one (Nat.succ.inj h)
  obtain ⟨b2, l, rfl⟩ := List.exists_cons_of_length_eq_add_one (by simpa using h : l.length = 5 + 1)
  obtain ⟨b3, l, rfl⟩ := List.exists_cons_of_length_eq_add_one (by simpa using h : l.length = 4 + 1)
  obtain ⟨b4, l, rfl⟩ := List.exists_cons_of_length_eq_add_one (by simpa using h : l.length = 3 + 1)
  obtain ⟨b5, l, rfl⟩ := List.exists_cons_of_length_eq_add_one (by simpa using h : l.length = 2 + 1)
  obtain ⟨b6, l, rfl⟩ := List.exists_cons_of_length_eq_add_one (by simpa using h : l.length = 1 + 1)
  obtain ⟨b7, l, rfl⟩ := List.exists_cons_of_length_eq_add_one (by simpa using h : l.length = 0 + 1)
  have hl : l = [] := List.length_eq_zero.mp (by simpa using h)
  subst hl
  exact ⟨b0, b1, b2, b3, b4, b5, b6, b7, rfl⟩

theorem convertBcdToImsi_ok_inv (b : List Nat) (s : String) (h : convertBcdToImsi b = .ok s) :
    b.length = 8 ∧ ∀ i, i < 15 → nibbleAt b i ≤ 9 := by
  by_contra hcon
  have : ∃ e, convertBcdToImsi b = .error e := by
    by_cases hlen : b.length = 8
    · apply convertBcdToImsi_error b hlen
      by_contra hc
      push_neg at hc
      exact hcon ⟨hlen, hc⟩
    · exact ⟨.invalidLength, by simp [convertBcdToImsi, hlen]⟩
  obtain ⟨e, he⟩ := this
  rw [he] at h
  cases h

theorem digitChar_sub (n : Nat) (h : n ≤ 9) : (Char.ofNat (48 + n)).toNat - 48 = n := by
  rw [digitChar_toNat n (by omega)]
  omega

/-- Claim C2, as stated, fails: a datagram with `0` in the padding nibble is accepted
by `convertBcdToImsi`, and encoding the result gives `0x9F` in byte 7, not the
`0x90` that was decoded. -/
theorem encode_decode_counterexample :
    convertBcdToImsi [0x25, 0, 0x10, 0x12, 0x34, 0x56, 0x78, 0x90] = .ok "250010123456789" ∧
    convertImsiToBcd "250010123456789" = .ok [0x25, 0, 0x10, 0x12, 0x34, 0x56, 0x78, 0x9F] ∧
    convertImsiToBcd "250010123456789" ≠ .ok [0x25, 0, 0x10, 0x12, 0x34, 0x56, 0x78, 0x90] := by
  decide

/-- Claim C2, amended: for a sequence of bytes that `convertBcdToImsi` accepts and
whose padding nibble (the low nibble of byte 7) is `0xF`, encoding the decoded
string gives the sequence back. -/
theorem encode_decode (b : List Nat) (s : String) (hb : IsBytes b)
    (hdec : convertBcdToImsi b = .ok s) (hpad : b.getD 7 0 % 16 = 0xF) :
    convertImsiToBcd s = .ok b := by
  obtain ⟨hlen, hnib⟩ := convertBcdToImsi_ok_inv b s hdec
  rw [convertBcdToImsi_ok b hlen hnib] at hdec
  obtain ⟨b0, b1, b2, b3, b4, b5, b6, b7, rfl⟩ := exists_of_length_8 b hlen
  simp only [IsBytes, List.mem_cons, List.mem_singleton, List.not_mem_nil, or_false,
    forall_eq_or_imp, forall_eq] at hb
  obtain ⟨l0, l1, l2, l3, l4, l5, l6, l7⟩ := hb
  have n0 := hnib 0 (by omega)
  have n1 := hnib 1 (by omega)
  have n2 := hnib 2 (by omega)
  have n3 := hnib 3 (by omega)
  have n4 := hnib 4 (by omega)
  have n5 := hnib 5 (by omega)
  have n6 := hnib 6 (by omega)
  have n7 := hnib 7 (by omega)
  have n8 := hnib 8 (by omega)
  have n9 := hnib 9 (by omega)
  have n10 := hnib 10 (by omega)
  have n11 := hnib 11 (by omega)
  have n12 := hnib 12 (by omega)
  have n13 := hnib 13 (by omega)
  have n14 := hnib 14 (by omega)
  simp only [nibbleAt, Nat.reduceMod, Nat.reduceDiv, if_true, one_ne_zero, if_false,
    List.getD_cons_zero, List.getD_cons_succ] at n0 n1 n2 n3 n4 n5 n6 n7 n8 n9 n10 n11 n12 n13 n14
  simp only [List.getD_cons_zero, List.getD_cons_succ] at hpad
  simp only [nibbleChars, List.range, List.range.loop, List.flatMap_cons, List.flatMap_nil,
    Nat.reduceMul, Nat.reduceAdd, List.cons_append, List.nil_append, List.append_nil,
    nibbleAt, Nat.reduceMod, Nat.reduceDiv, if_true, one_ne_zero, if_false,
    List.getD_cons_zero, List.getD_cons_succ, Except.ok.injEq] at hdec
  subst hdec
  rw [convertImsiToBcd_explicit _ _ _ _ _ _ _ _ _ _ _ _ _ _ _ (by
    simp only [List.mem_cons, List.mem_singleton, List.not_mem_nil, or_false, forall_eq_or_imp,
      forall_eq]
    exact ⟨isdigit_digitChar _ n0, isdigit_digitChar _ n1, isdigit_digitChar _ n2,
      isdigit_digitChar _ n3, isdigit_digitChar _ n4, isdigit_digitChar _ n5,
      isdigit_digitChar _ n6, isdigit_digitChar _ n7, isdigit_digitChar _ n8,
      isdigit_digitChar _ n9, isdigit_digitChar _ n10, isdigit_digitChar _ n11,
      isdigit_digitChar _ n12, isdigit_digitChar _ n13, isdigit_digitChar _ n14⟩)]
  rw [digitChar_sub _ n0, digitChar_sub _ n1, digitChar_sub _ n2, digitChar_sub _ n3,
    digitChar_sub _ n4, digitChar_sub _ n5, digitChar_sub _ n6, digitChar_sub _ n7,
    digitChar_sub _ n8, digitChar_sub _ n9, digitChar_sub _ n10, digitChar_sub _ n11,
    digitChar_sub _ n12, digitChar_sub _ n13, digitChar_sub _ n14]
  have e0 : b0 / 16 % 16 * 16 + b0 % 16 = b0 := by omega
  have e1 : b1 / 16 % 16 * 16 + b1 % 16 = b1 := by omega
  have e2 : b2 / 16 % 16 * 16 + b2 % 16 = b2 := by omega
  have e3 : b3 / 16 % 16 * 16 + b3 % 16 = b3 := by omega
  have e4 : b4 / 16 % 16 * 16 + b4 % 16 = b4 := by omega
  have e5 : b5 / 16 % 16 * 16 + b5 % 16 = b5 := by omega
  have e6 : b6 / 16 % 16 * 16 + b6 % 16 = b6 := by omega
  have e7 : b7 / 16 % 16 * 16 + 15 = b7 := by omega
  rw [e0, e1, e2, e3, e4, e5, e6, e7]

/-- Witness for the amended claim C2 at the encoding of `250010123456789`. -/
theorem encode_decode_witness :
    convertImsiToBcd "250010123456789" = .ok [0x25, 0, 0x10, 0x12, 0x34, 0x56, 0x78, 0x9F] :=
  encode_decode [0x25, 0, 0x10, 0x12, 0x34, 0x56, 0x78, 0x9F] "250010123456789"
    (by decide) (by decide) (by decide)

/-! ### The session table -/

theorem count_ne_zero_iff (m : Sessions) (key : String) :
    (Sessions.count m key != 0) = true ↔ key ∈ Sessions.keys m := by
  unfold Sessions.count Sessions.keys
  by_cases h : m.any (fun e => e.1 == key) = true
  · rw [if_pos h]
    simp only [List.any_eq_true, beq_iff_eq] at h
    obtain ⟨e, he, rfl⟩ := h
    simp only [bne_iff_ne, ne_eq, one_ne_zero, not_false_eq_true, true_iff]
    exact List.mem_map_of_mem _ he
  · rw [if_neg h]
    simp only [List.any_eq_true, beq_iff_eq, not_exists, not_and] at h
    simp only [bne_self_eq_false, Bool.false_eq_true, false_iff, List.mem_map, not_exists, not_and]
    intro e he
    exact h e he

theorem setCount_ne_zero_iff (blacklist : List String) (key : String) :
    (setCount blacklist key != 0) = true ↔ key ∈ blacklist := by
  unfold setCount
  by_cases h : key ∈ blacklist <;> simp [h]

theorem assign_perm (m : Sessions) (key : String) (value : TimePoint)
    (h : key ∉ Sessions.keys m) : (Sessions.assign m key value).Perm ((key, value) :: m) := by
  induction m with
  | nil => exact List.Perm.refl _
  | cons e rest ih =>
    obtain ⟨k, v⟩ := e
    have hk : key ≠ k := fun hc => h (by simp [Sessions.keys, hc])
    have hrest : key ∉ Sessions.keys rest := fun hc => h (by
      simp only [Sessions.keys, List.map_cons, List.mem_cons]
      exact Or.inr hc)
    unfold Sessions.assign
    by_cases hlt : keyLess key k
    · rw [if_pos hlt]
    · rw [if_neg hlt, if_neg hk]
      exact ((ih hrest).cons (k, v)).trans (List.Perm.swap _ _ _)

theorem mem_keys_assign (m : Sessions) (key : String) (value : TimePoint) (x : String) :
    x ∈ Sessions.keys (Sessions.assign m key value) ↔ x = key ∨ x ∈ Sessions.keys m := by
  induction m with
  | nil => simp [Sessions.assign, Sessions.keys]
  | cons e rest ih =>
    obtain ⟨k, v⟩ := e
    unfold Sessions.assign
    by_cases hlt : keyLess key k
    · rw [if_pos hlt]
      simp [Sessions.keys]
    · rw [if_neg hlt]
      by_cases hk : key = k
      · rw [if_pos hk]
        subst hk
        simp [Sessions.keys]
      · rw [if_neg hk]
        simp only [Sessions.keys, List.map_cons, List.mem_cons] at ih ⊢
        rw [ih]
        tauto

theorem assign_wf (m : Sessions) (key : String) (value : TimePoint) (h : Sessions.WF m) :
    Sessions.WF (Sessions.assign m key value) := by
  induction m with
  | nil => simp [Sessions.assign, Sessions.WF, Sessions.keys]
  | cons e rest ih =>
    obtain ⟨k, v⟩ := e
    have hhead : ∀ y ∈ Sessions.keys rest, keyLess k y := by
      simp only [Sessions.WF, Sessions.keys, List.map_cons, List.pairwise_cons] at h
      exact h.1
    have hrest : Sessions.WF rest := by
      simp only [Sessions.WF, Sessions.keys, List.map_cons, List.pairwise_cons] at h
      exact h.2
    unfold Sessions.assign
    by_cases hlt : keyLess key k
    · rw [if_pos hlt]
      simp only [Sessions.WF, Sessions.keys, List.map_cons, List.pairwise_cons, List.mem_cons]
      refine ⟨?_, hhead, hrest⟩
      rintro y (rfl | hy)
      · exact hlt
      · exact keyLess_trans hlt (hhead y hy)
    · rw [if_neg hlt]
      by_cases hk : key = k
      · rw [if_pos hk]
        subst hk
        exact h
      · rw [if_neg hk]
        have hgt : keyLess k key := keyLess_total hlt hk
        simp only [Sessions.WF, Sessions.keys, List.map_cons, List.pairwise_cons]
        refine ⟨?_, ih hrest⟩
        intro y hy
        rcases (mem_keys_assign rest key value y).mp hy with rfl | hy'
        · exact hgt
        · exact hhead y hy'

theorem wf_nodup (m : Sessions) (h : Sessions.WF m) : (Sessions.keys m).Nodup := by
  unfold Sessions.WF at h
  unfold List.Nodup
  refine List.Pairwise.imp ?_ h
  intro a b hab heq
  rw [← heq] at hab
  exact keyLess_irrefl a hab

theorem keys_erase (m : Sessions) (key : String) :
    Sessions.keys (Sessions.erase m key) = (Sessions.keys m).filter (fun k => k != key) := by
  simp only [Sessions.keys, Sessions.erase, List.filter_map]
  rfl

theorem mem_keys_erase (m : Sessions) (key x : String) :
    x ∈ Sessions.keys (Sessions.erase m key) ↔ x ≠ key ∧ x ∈ Sessions.keys m := by
  rw [keys_erase, List.mem_filter]
  simp only [bne_iff_ne, ne_eq]
  tauto

theorem erase_wf (m : Sessions) (key : String) (h : Sessions.WF m) :
    Sessions.WF (Sessions.erase m key) := by
  unfold Sessions.WF
  rw [keys_erase]
  exact List.Pairwise.sublist (List.filter_sublist _) h

theorem admission_cond (blacklist : List String) (x : String) (s : Server) :
    (setCount blacklist x != 0 || Sessions.count s.sessions x != 0) = true ↔
      (x ∈ blacklist ∨ x ∈ Sessions.keys s.sessions) := by
  rw [Bool.or_eq_true, setCount_ne_zero_iff, count_ne_zero_iff]

theorem admission_of_known (blacklist : List String) (now : TimePoint) (stamp : String)
    (x : String) (s : Server) (h : x ∈ blacklist ∨ x ∈ Sessions.keys s.sessions) :
    admission blacklist now stamp x s = (s, "rejected") := by
  unfold admission
  rw [if_pos ((admission_cond blacklist x s).mpr h)]
  rfl

theorem admission_of_new (blacklist : List String) (now : TimePoint) (stamp : String)
    (x : String) (s : Server) (h : ¬ (x ∈ blacklist ∨ x ∈ Sessions.keys s.sessions)) :
    admission blacklist now stamp x s =
      (Server.mk (Sessions.assign s.sessions x now) (s.cdr ++ [⟨stamp, x, .create⟩]),
        "created") := by
  unfold admission
  rw [if_neg (fun hc => h ((admission_cond blacklist x s).mp hc))]
  rfl

/-- Claim C5: the admission block.  For an identity that is blacklisted or
already in the table the reply is the 8-byte literal `rejected` and neither the
table nor the CDR stream changes; otherwise the reply is the 7-byte literal
`created`, the table is the old table with one more entry `(x, now)` (all other
entries as before, key order kept), and the CDR stream is the old stream
followed by exactly one record, a `create` for `x`. -/
theorem admission_spec (blacklist : List String) (now : TimePoint) (stamp : String)
    (x : String) (s : Server) :
    ((x ∈ blacklist ∨ x ∈ Sessions.keys s.sessions) →
      admission blacklist now stamp x s = (s, "rejected") ∧ "rejected".utf8ByteSize = 8) ∧
    (¬ (x ∈ blacklist ∨ x ∈ Sessions.keys s.sessions) →
      (admission blacklist now stamp x s).2 = "created" ∧ "created".utf8ByteSize = 7 ∧
      (admission blacklist now stamp x s).1.sessions.Perm ((x, now) :: s.sessions) ∧
      (Sessions.WF s.sessions → Sessions.WF (admission blacklist now stamp x s).1.sessions) ∧
      (admission blacklist now stamp x s).1.cdr = s.cdr ++ [⟨stamp, x, .create⟩]) := by
  refine ⟨fun h => ⟨admission_of_known blacklist now stamp x s h, by decide⟩, fun h => ?_⟩
  have hx : x ∉ Sessions.keys s.sessions := fun hc => h (Or.inr hc)
  rw [admission_of_new blacklist now stamp x s h]
  exact ⟨rfl, by decide, assign_perm _ _ _ hx, assign_wf _ _ _, rfl⟩

/-- Witness for claim C5: a blacklisted identity, and a fresh identity on an empty table. -/
theorem admission_spec_witness :
    (admission ["001010123456789"] 5 "t" "001010123456789" Server.init = (Server.init, "rejected")
      ∧ "rejected".utf8ByteSize = 8) ∧
    ((admission ["001010123456789"] 5 "t" "250010123456789" Server.init).2 = "created" ∧
      "created".utf8ByteSize = 7 ∧
      (admission ["001010123456789"] 5 "t" "250010123456789" Server.init).1.sessions.Perm
        (("250010123456789", 5) :: Server.init.sessions) ∧
      (Sessions.WF Server.init.sessions →
        Sessions.WF (admission ["001010123456789"] 5 "t" "250010123456789" Server.init).1.sessions) ∧
      (admission ["001010123456789"] 5 "t" "250010123456789" Server.init).1.cdr =
        Server.init.cdr ++ [⟨"t", "250010123456789", .create⟩]) :=
  ⟨(admission_spec ["001010123456789"] 5 "t" "001010123456789" Server.init).1
      (Or.inl (by decide)),
   (admission_spec ["001010123456789"] 5 "t" "250010123456789" Server.init).2 (by decide)⟩

/-! ### The two deletion loops -/

theorem erase_filter (m : Sessions) (key : String) (p : String × TimePoint → Bool) :
    (Sessions.erase m key).filter p = m.filter (fun e => e.1 != key && p e) := by
  unfold Sessions.erase
  rw [List.filter_filter]
  congr 1
  funext e
  exact Bool.and_comm _ _

theorem deleteExpired_sessions (stamp : Nat → String) (l : List String) (k : Nat) (s : Server) :
    (deleteExpired stamp l k s).sessions = s.sessions.filter (fun e => decide (e.1 ∉ l)) := by
  induction l generalizing k s with
  | nil => simp [deleteExpired]
  | cons imsi rest ih =>
    rw [deleteExpired, ih, erase_filter]
    apply List.filter_congr
    intro e _
    by_cases h1 : e.1 = imsi <;> by_cases h2 : e.1 ∈ rest <;> simp [h1, h2]

theorem deleteExpired_cdr (stamp : Nat → String) (l : List String) (k : Nat) (s : Server) :
    ∃ added, (deleteExpired stamp l k s).cdr = s.cdr ++ added ∧
      added.map CdrRecord.entry = l.map (fun x => (x, CdrEvent.deleted)) := by
  induction l generalizing k s with
  | nil => exact ⟨[], by simp [deleteExpired], rfl⟩
  | cons imsi rest ih =>
    obtain ⟨added, h1, h2⟩ := ih (k + 1)
      { sessions := Sessions.erase s.sessions imsi, cdr := s.cdr ++ [⟨stamp k, imsi, .deleted⟩] }
    refine ⟨⟨stamp k, imsi, .deleted⟩ :: added, ?_, ?_⟩
    · rw [deleteExpired, h1]
      simp
    · simp [h2, CdrRecord.entry]

theorem deleteBatch_sessions (stamp : String) (l : List String) (s : Server) :
    (deleteBatch stamp l s).sessions = s.sessions.filter (fun e => decide (e.1 ∉ l)) := by
  induction l generalizing s with
  | nil => simp [deleteBatch]
  | cons imsi rest ih =>
    rw [deleteBatch, ih, erase_filter]
    apply List.filter_congr
    intro e _
    by_cases h1 : e.1 = imsi <;> by_cases h2 : e.1 ∈ rest <;> simp [h1, h2]

theorem deleteBatch_cdr (stamp : String) (l : List String) (s : Server) :
    (deleteBatch stamp l s).cdr =
      s.cdr ++ l.map (fun x => ⟨stamp, x, CdrEvent.deleteWithShutdown⟩) := by
  induction l generalizing s with
  | nil => simp [deleteBatch]
  | cons imsi rest ih =>
    rw [deleteBatch, ih]
    simp

theorem expiredList_eq (timeout : Int) (now : TimePoint) (m : Sessions) :
    expiredList timeout now m = Sessions.keys (m.filter (isExpired timeout now)) := by
  induction m with
  | nil => rfl
  | cons e rest ih =>
    obtain ⟨imsi, creation_time⟩ := e
    unfold expiredList
    by_cases h : now - creation_time > timeout * ticksPerSecond
    · rw [if_pos h, ih]
      simp [Sessions.keys, isExpired, h]
    · rw [if_neg h, ih]
      simp [Sessions.keys, isExpired, h]

theorem firstBatch_eq (rate : Int) (m : Sessions) (counter : Int) :
    firstBatch rate m counter = (Sessions.keys m).take (rate - counter).toNat := by
  induction m generalizing counter with
  | nil => simp [firstBatch, Sessions.keys]
  | cons e rest ih =>
    obtain ⟨imsi, creation_time⟩ := e
    unfold firstBatch
    by_cases h : counter ≥ rate
    · rw [if_pos h]
      have : (rate - counter).toNat = 0 := by omega
      rw [this]
      rfl
    · rw [if_neg h, ih]
      have : (rate - counter).toNat = (rate - (counter + 1)).toNat + 1 := by omega
      rw [this]
      rfl

theorem entry_eq_of_key_eq (m : Sessions) (h : Sessions.WF m) (e e' : String × TimePoint)
    (he : e ∈ m) (he' : e' ∈ m) (hk : e.1 = e'.1) : e = e' :=
  List.inj_on_of_nodup_map (wf_nodup m h) he he' hk

theorem filter_not_mem_keys_filter (m : Sessions) (h : Sessions.WF m)
    (p : String × TimePoint → Bool) :
    m.filter (fun e => decide (e.1 ∉ Sessions.keys (m.filter p))) = m.filter (fun e => !p e) := by
  apply List.filter_congr
  intro e he
  by_cases hp : p e = true
  · have : e.1 ∈ Sessions.keys (m.filter p) :=
      List.mem_map_of_mem _ (List.mem_filter.mpr ⟨he, hp⟩)
    simp [this, hp]
  · have : e.1 ∉ Sessions.keys (m.filter p) := by
      intro hc
      obtain ⟨e', he', hk⟩ := List.mem_map.mp hc
      have hmem := List.mem_filter.mp he'
      have := entry_eq_of_key_eq m h e' e hmem.1 he hk
      rw [this] at hmem
      exact hp hmem.2
    simp [this, hp]

/-- Claim C10: one expiry sweep at instant `now` with timeout `T`, on a table with
pairwise distinct keys.  The table afterwards consists of exactly the old
entries whose age `now - creation_instant` is not strictly greater than `T`
seconds, each unchanged and in the old order (an entry whose age is exactly
`T` seconds stays); the CDR stream is the old stream followed by one `deleted`
record for each removed entry, in table order, with no identity twice. -/
theorem sweep_spec (T : Int) (now : TimePoint) (stamp : Nat → String) (s : Server)
    (hwf : Sessions.WF s.sessions) :
    (sweep T now stamp s).sessions = s.sessions.filter (fun e => !isExpired T now e) ∧
    (∀ e, isExpired T now e = true ↔ now - e.2 > T * ticksPerSecond) ∧
    (∀ e ∈ s.sessions, now - e.2 = T * ticksPerSecond → e ∈ (sweep T now stamp s).sessions) ∧
    (∃ added, (sweep T now stamp s).cdr = s.cdr ++ added ∧
      added.map CdrRecord.entry =
        (s.sessions.filter (isExpired T now)).map (fun e => (e.1, CdrEvent.deleted)) ∧
      (added.map CdrRecord.imsi).Nodup) := by
  have hsess : (sweep T now stamp s).sessions =
      s.sessions.filter (fun e => !isExpired T now e) := by
    unfold sweep
    rw [deleteExpired_sessions, expiredList_eq, filter_not_mem_keys_filter _ hwf]
  refine ⟨hsess, fun e => by simp [isExpired], ?_, ?_⟩
  · intro e he hage
    rw [hsess, List.mem_filter]
    refine ⟨he, ?_⟩
    simp [isExpired, hage]
  · obtain ⟨added, h1, h2⟩ := deleteExpired_cdr stamp (expiredList T now s.sessions) 0 s
    refine ⟨added, h1, ?_, ?_⟩
    · rw [h2, expiredList_eq, Sessions.keys, List.map_map]
      rfl
    · have : added.map CdrRecord.imsi = expiredList T now s.sessions := by
        have := congrArg (List.map Prod.fst) h2
        simpa [List.map_map, Function.comp_def, CdrRecord.entry] using this
      rw [this, expiredList_eq]
      exact List.Nodup.sublist (List.Sublist.map _ (List.filter_sublist _)) (wf_nodup _ hwf)

/-- Witness for claim C10: three sessions of age 3 s, exactly 2 s and just under 2 s,
swept with a timeout of 2 s. -/
theorem sweep_spec_witness :
    Sessions.WF [("a", 0), ("b", 1000000000), ("c", 1000000001)] ∧
    (sweep 2 3000000000 (fun _ => "t")
        ⟨[("a", 0), ("b", 1000000000), ("c", 1000000001)], []⟩).sessions =
      [("b", 1000000000), ("c", 1000000001)] :=
  ⟨by decide,
   (sweep_spec 2 3000000000 (fun _ => "t")
      ⟨[("a", 0), ("b", 1000000000), ("c", 1000000001)], []⟩ (by decide)).1⟩

/-! ### Runs: the blacklist never enters the table -/

theorem keys_filter_subset (m : Sessions) (p : String × TimePoint → Bool) (x : String)
    (h : x ∈ Sessions.keys (m.filter p)) : x ∈ Sessions.keys m :=
  (List.Sublist.map Prod.fst (List.filter_sublist m)).subset h

theorem step_keys (cfg : Config) (s : Server) (a : Action) (x : String)
    (hx : x ∈ Sessions.keys (step cfg s a).sessions) :
    x ∈ Sessions.keys s.sessions ∨ x ∉ cfg.blacklist := by
  cases a with
  | admission now stamp imsi =>
    by_cases h : imsi ∈ cfg.blacklist ∨ imsi ∈ Sessions.keys s.sessions
    · rw [step, admission_of_known cfg.blacklist now stamp imsi s h] at hx
      exact Or.inl hx
    · rw [step, admission_of_new cfg.blacklist now stamp imsi s h] at hx
      rcases (mem_keys_assign s.sessions imsi now x).mp hx with rfl | hx'
      · exact Or.inr (fun hc => h (Or.inl hc))
      · exact Or.inl hx'
  | sweep now stamp =>
    rw [step, sweep, deleteExpired_sessions] at hx
    exact Or.inl (keys_filter_subset _ _ x hx)
  | drain stamp =>
    rw [step, drainStep] at hx
    split at hx
    · exact Or.inl hx
    · rw [deleteBatch_sessions] at hx
      exact Or.inl (keys_filter_subset _ _ x hx)

theorem foldl_step_keys (cfg : Config) (acts : List Action) (s : Server) (x : String)
    (hs : x ∈ Sessions.keys s.sessions → x ∉ cfg.blacklist)
    (hx : x ∈ Sessions.keys (acts.foldl (step cfg) s).sessions) : x ∉ cfg.blacklist := by
  induction acts generalizing s with
  | nil => exact hs hx
  | cons a rest ih =>
    refine ih (step cfg s a) ?_ hx
    intro hx'
    rcases step_keys cfg s a x hx' with h | h
    · exact hs h
    · exact h

/-- Claim C7: after any sequence of admission, expiry-sweep and drain steps from the
empty table, no identity of the blacklist is a key of the session table. -/
theorem blacklist_disjoint (cfg : Config) (acts : List Action) :
    ∀ x, x ∈ cfg.blacklist → x ∉ Sessions.keys (run cfg acts).sessions :=
  fun x hbl hx => foldl_step_keys cfg acts Server.init x (fun h => by cases h) hx hbl

/-- Witness for claim C7: a run that tries to admit a blacklisted identity twice,
around an accepted admission and a sweep. -/
theorem blacklist_disjoint_witness :
    "001010123456789" ∉ Sessions.keys
      (run ⟨["001010123456789"], 2, 2⟩
        [.admission 0 "t" "001010123456789", .admission 1 "t" "250010123456789",
         .sweep 5 (fun _ => "t"), .admission 6 "t" "001010123456789"]).sessions :=
  blacklist_disjoint ⟨["001010123456789"], 2, 2⟩
    [.admission 0 "t" "001010123456789", .admission 1 "t" "250010123456789",
     .sweep 5 (fun _ => "t"), .admission 6 "t" "001010123456789"]
    "001010123456789" (by decide)

/-! ### Runs: create and deletion records alternate -/

theorem alternates_cons_cons (e₁ e₂ : CdrEvent) (rest : List CdrEvent) :
    alternates (e₁ :: e₂ :: rest) = true ↔
      e₁ = .create ∧ e₂.isDeletion = true ∧ alternates rest = true := by
  simp [alternates, and_assoc]

theorem isDeletion_iff (e : CdrEvent) : e.isDeletion = true ↔ e ≠ .create := by
  cases e <;> simp [CdrEvent.isDeletion]

theorem counts_cons_cons (e₁ e₂ : CdrEvent) (rest : List CdrEvent)
    (h₁ : e₁ = .create) (h₂ : e₂.isDeletion = true) :
    (e₁ :: e₂ :: rest).countP (fun e => e == .create) =
        rest.countP (fun e => e == .create) + 1 ∧
    (e₁ :: e₂ :: rest).countP CdrEvent.isDeletion = rest.countP CdrEvent.isDeletion + 1 := by
  have h₂' := (isDeletion_iff e₂).mp h₂
  subst h₁
  simp [List.countP_cons, h₂, h₂', CdrEvent.isDeletion]

theorem alternates_append_create (evs : List CdrEvent) (h : alternates evs = true)
    (hbal : evs.countP (fun e => e == .create) = evs.countP CdrEvent.isDeletion) :
    alternates (evs ++ [.create]) = true := by
  induction evs using alternates.induct with
  | case1 => rfl
  | case2 e =>
    have he : e = .create := by simpa [alternates] using h
    subst he
    simp [CdrEvent.isDeletion] at hbal
  | case3 e₁ e₂ rest ih =>
    obtain ⟨h₁, h₂, h₃⟩ := (alternates_cons_cons e₁ e₂ rest).mp h
    obtain ⟨c₁, c₂⟩ := counts_cons_cons e₁ e₂ rest h₁ h₂
    rw [c₁, c₂] at hbal
    rw [List.cons_append, List.cons_append, alternates_cons_cons]
    exact ⟨h₁, h₂, ih h₃ (by omega)⟩

theorem alternates_append_deletion (evs : List CdrEvent) (d : CdrEvent)
    (h : alternates evs = true)
    (hopen : evs.countP (fun e => e == .create) = evs.countP CdrEvent.isDeletion + 1)
    (hd : d.isDeletion = true) : alternates (evs ++ [d]) = true := by
  induction evs using alternates.induct with
  | case1 => simp at hopen
  | case2 e =>
    have he : e = .create := by simpa [alternates] using h
    subst he
    simp [alternates, hd]
  | case3 e₁ e₂ rest ih =>
    obtain ⟨h₁, h₂, h₃⟩ := (alternates_cons_cons e₁ e₂ rest).mp h
    obtain ⟨c₁, c₂⟩ := counts_cons_cons e₁ e₂ rest h₁ h₂
    rw [c₁, c₂] at hopen
    rw [List.cons_append, List.cons_append, alternates_cons_cons]
    exact ⟨h₁, h₂, ih h₃ (by omega)⟩

theorem alternates_before_deletion (evs : List CdrEvent) (h : alternates evs = true)
    (p q : List CdrEvent) (d : CdrEvent) (hsplit : evs = p ++ d :: q)
    (hd : d.isDeletion = true) :
    p.countP (fun e => e == .create) = p.countP CdrEvent.isDeletion + 1 := by
  induction evs using alternates.induct generalizing p with
  | case1 => simp at hsplit
  | case2 e =>
    have he : e = .create := by simpa [alternates] using h
    subst he
    cases p with
    | nil =>
      simp only [List.nil_append, List.cons.injEq] at hsplit
      rw [← hsplit.1] at hd
      simp [CdrEvent.isDeletion] at hd
    | cons a p₁ => simp at hsplit
  | case3 e₁ e₂ rest ih =>
    obtain ⟨h₁, h₂, h₃⟩ := (alternates_cons_cons e₁ e₂ rest).mp h
    cases p with
    | nil =>
      simp only [List.nil_append, List.cons.injEq] at hsplit
      rw [← hsplit.1, h₁] at hd
      simp [CdrEvent.isDeletion] at hd
    | cons a p₁ =>
      cases p₁ with
      | nil =>
        simp only [List.cons_append, List.nil_append, List.cons.injEq] at hsplit
        rw [← hsplit.1, h₁]
        simp [CdrEvent.isDeletion]
      | cons b p₂ =>
        simp only [List.cons_append, List.cons.injEq] at hsplit
        obtain ⟨ha, hb, hrest⟩ := hsplit
        have := ih h₃ p₂ hrest
        obtain ⟨c₁, c₂⟩ := counts_cons_cons a b p₂ (ha ▸ h₁) (hb ▸ h₂)
        rw [c₁, c₂, this]

theorem eventsFor_append (x : String) (a b : List CdrRecord) :
    eventsFor x (a ++ b) = eventsFor x a ++ eventsFor x b := by
  simp [eventsFor]

theorem eventsFor_of_entries (x : String) (ev : CdrEvent) (l : List String)
    (added : List CdrRecord) (h : added.map CdrRecord.entry = l.map (fun k => (k, ev))) :
    eventsFor x added = List.replicate (l.count x) ev := by
  induction l generalizing added with
  | nil =>
    have : added = [] := by simpa using h
    subst this
    rfl
  | cons y rest ih =>
    cases added with
    | nil => simp at h
    | cons r added' =>
      simp only [List.map_cons, List.cons.injEq] at h
      obtain ⟨hr, hrest⟩ := h
      have hi : r.imsi = y := congrArg Prod.fst hr
      have he : r.event = ev := congrArg Prod.snd hr
      have ih' := ih added' hrest
      unfold eventsFor at ih' ⊢
      by_cases hxy : y = x
      · subst hxy
        simp [List.filter_cons, hi, he, ih', List.replicate_succ]
      · have hne : ¬ (r.imsi == x) = true := by simp [hi, hxy]
        rw [List.filter_cons, if_neg hne, ih', List.count_cons]
        simp [hxy]

theorem balanced_append_create (s : Server) (now : TimePoint) (stamp : String) (imsi : String)
    (himsi : imsi ∉ Sessions.keys s.sessions) (x : String) (h : Balanced s x) :
    Balanced { sessions := Sessions.assign s.sessions imsi now,
               cdr := s.cdr ++ [⟨stamp, imsi, .create⟩] } x := by
  obtain ⟨halt, hcount⟩ := h
  unfold Balanced creates deletions at *
  simp only [eventsFor_append, mem_keys_assign]
  by_cases hx : imsi = x
  · subst hx
    have he : eventsFor imsi [⟨stamp, imsi, .create⟩] = [.create] := by simp [eventsFor]
    rw [if_neg himsi] at hcount
    rw [he]
    refine ⟨alternates_append_create _ halt hcount, ?_⟩
    simp [List.countP_append, CdrEvent.isDeletion, hcount]
  · have he : eventsFor x [⟨stamp, imsi, .create⟩] = [] := by simp [eventsFor, hx]
    rw [he, List.append_nil]
    refine ⟨halt, ?_⟩
    rw [hcount]
    have hx' : ¬ x = imsi := fun hc => hx hc.symm
    simp [hx']

theorem balanced_delete (s s' : Server) (l : List String) (ev : CdrEvent)
    (added : List CdrRecord) (hev : ev.isDeletion = true) (hnd : l.Nodup)
    (hsub : ∀ k ∈ l, k ∈ Sessions.keys s.sessions)
    (hsess : s'.sessions = s.sessions.filter (fun e => decide (e.1 ∉ l)))
    (hcdr : s'.cdr = s.cdr ++ added)
    (hadded : added.map CdrRecord.entry = l.map (fun k => (k, ev)))
    (x : String) (h : Balanced s x) : Balanced s' x := by
  obtain ⟨halt, hcount⟩ := h
  unfold Balanced creates deletions at *
  rw [hcdr, eventsFor_append, eventsFor_of_entries x ev l added hadded, List.count_eq_of_nodup hnd]
  have hkeys : x ∈ Sessions.keys s'.sessions ↔ x ∈ Sessions.keys s.sessions ∧ x ∉ l := by
    rw [hsess]
    simp only [Sessions.keys, List.mem_map, List.mem_filter, decide_eq_true_eq]
    constructor
    · rintro ⟨e, ⟨he, hnot⟩, rfl⟩
      exact ⟨⟨e, he, rfl⟩, hnot⟩
    · rintro ⟨⟨e, he, rfl⟩, hnot⟩
      exact ⟨e, ⟨he, hnot⟩, rfl⟩
  by_cases hx : x ∈ l
  · have hin := hsub x hx
    rw [if_pos hin] at hcount
    have hout : x ∉ Sessions.keys s'.sessions := fun hc => (hkeys.mp hc).2 hx
    rw [if_pos hx, if_neg hout]
    refine ⟨alternates_append_deletion _ ev halt hcount hev, ?_⟩
    have hne := (isDeletion_iff ev).mp hev
    simp [List.countP_append, hev, hne, hcount]
  · have hsame : (x ∈ Sessions.keys s'.sessions) ↔ (x ∈ Sessions.keys s.sessions) := by
      rw [hkeys]
      exact ⟨fun h => h.1, fun h => ⟨h, hx⟩⟩
    rw [if_neg hx]
    simp only [List.replicate_zero, List.append_nil]
    refine ⟨halt, ?_⟩
    rw [hcount]
    by_cases hin : x ∈ Sessions.keys s.sessions
    · rw [if_pos hin, if_pos (hsame.mpr hin)]
    · rw [if_neg hin, if_neg (fun hc => hin (hsame.mp hc))]

theorem filter_wf (m : Sessions) (p : String × TimePoint → Bool) (h : Sessions.WF m) :
    Sessions.WF (m.filter p) :=
  List.Pairwise.sublist (List.Sublist.map Prod.fst (List.filter_sublist m)) h

theorem step_invariant (cfg : Config) (s : Server) (a : Action)
    (h : Sessions.WF s.sessions ∧ ∀ x, Balanced s x) :
    Sessions.WF (step cfg s a).sessions ∧ ∀ x, Balanced (step cfg s a) x := by
  obtain ⟨hwf, hbal⟩ := h
  cases a with
  | admission now stamp imsi =>
    by_cases hrej : imsi ∈ cfg.blacklist ∨ imsi ∈ Sessions.keys s.sessions
    · rw [step, admission_of_known cfg.blacklist now stamp imsi s hrej]
      exact ⟨hwf, hbal⟩
    · rw [step, admission_of_new cfg.blacklist now stamp imsi s hrej]
      exact ⟨assign_wf _ _ _ hwf,
        fun x => balanced_append_create s now stamp imsi (fun hc => hrej (Or.inr hc)) x (hbal x)⟩
  | sweep now stamp =>
    obtain ⟨added, h1, h2⟩ :=
      deleteExpired_cdr stamp (expiredList cfg.session_timeout_sec now s.sessions) 0 s
    have hsess := deleteExpired_sessions stamp
      (expiredList cfg.session_timeout_sec now s.sessions) 0 s
    refine ⟨?_, fun x => ?_⟩
    · rw [step, sweep, hsess]
      exact filter_wf _ _ hwf
    · refine balanced_delete s _ (expiredList cfg.session_timeout_sec now s.sessions) .deleted
        added rfl ?_ ?_ hsess h1 h2 x (hbal x)
      · rw [expiredList_eq]
        exact List.Nodup.sublist (List.Sublist.map _ (List.filter_sublist _)) (wf_nodup _ hwf)
      · intro k hk
        rw [expiredList_eq] at hk
        exact keys_filter_subset _ _ k hk
  | drain stamp =>
    by_cases hempty : s.sessions.isEmpty = true
    · have hstep : step cfg s (.drain stamp) = s := by
        rw [step, drainStep, if_pos hempty]
      rw [hstep]
      exact ⟨hwf, hbal⟩
    · have hstep : step cfg s (.drain stamp) =
          deleteBatch stamp (firstBatch cfg.graceful_shutdown_rate s.sessions 0) s := by
        rw [step, drainStep, if_neg hempty]
      rw [hstep]
      have hsess := deleteBatch_sessions stamp
        (firstBatch cfg.graceful_shutdown_rate s.sessions 0) s
      refine ⟨?_, fun x => ?_⟩
      · rw [hsess]
        exact filter_wf _ _ hwf
      · refine balanced_delete s _ (firstBatch cfg.graceful_shutdown_rate s.sessions 0)
          .deleteWithShutdown _ rfl ?_ ?_ hsess (deleteBatch_cdr stamp _ s) ?_ x (hbal x)
        · rw [firstBatch_eq]
          exact List.Nodup.sublist (List.take_sublist _ _) (wf_nodup _ hwf)
        · intro k hk
          rw [firstBatch_eq] at hk
          exact (List.take_sublist _ _).subset hk
        · simp [CdrRecord.entry, Function.comp_def]

theorem foldl_step_invariant (cfg : Config) (acts : List Action) (s : Server)
    (h : Sessions.WF s.sessions ∧ ∀ x, Balanced s x) :
    Sessions.WF (acts.foldl (step cfg) s).sessions ∧
      ∀ x, Balanced (acts.foldl (step cfg) s) x := by
  induction acts generalizing s with
  | nil => exact h
  | cons a rest ih => exact ih (step cfg s a) (step_invariant cfg s a h)

theorem run_invariant (cfg : Config) (acts : List Action) :
    Sessions.WF (run cfg acts).sessions ∧ ∀ x, Balanced (run cfg acts) x :=
  foldl_step_invariant cfg acts Server.init
    ⟨List.Pairwise.nil, fun _ => ⟨rfl, rfl⟩⟩

/-- Claim C8: after any sequence of admission, expiry-sweep and drain steps from the
empty table and empty CDR stream, for every identity `x`: the records of `x`
read create, deletion, create, deletion, ...; the number of `create` records
minus the number of deletion records is 1 if `x` is in the table and 0 if not;
and every deletion record of `x` has before it one more `create` than
deletions of `x`. -/
theorem cdr_alternation (cfg : Config) (acts : List Action) (x : String) :
    alternates (eventsFor x (run cfg acts).cdr) = true ∧
    ((creates x (run cfg acts).cdr : Int) - (deletions x (run cfg acts).cdr : Int) =
      if x ∈ Sessions.keys (run cfg acts).sessions then 1 else 0) ∧
    (∀ pre r post, (run cfg acts).cdr = pre ++ r :: post → r.imsi = x →
      r.event.isDeletion = true → creates x pre = deletions x pre + 1) := by
  obtain ⟨halt, hcount⟩ := (run_invariant cfg acts).2 x
  refine ⟨halt, ?_, ?_⟩
  · rw [hcount]
    split <;> simp
  · intro pre r post hsplit hr hdel
    have hev : eventsFor x (run cfg acts).cdr =
        eventsFor x pre ++ r.event :: eventsFor x post := by
      rw [hsplit, eventsFor_append]
      simp [eventsFor, hr]
    exact alternates_before_deletion _ halt _ _ _ hev hdel

/-- Witness for claim C8: an identity admitted, expired by a sweep, admitted
again; its records alternate, and one `create` stands before the deletion. -/
theorem cdr_alternation_witness :
    alternates (eventsFor "250010123456789"
      (run ⟨[], 2, 2⟩
        [.admission 0 "t" "250010123456789", .sweep 3000000000 (fun _ => "u"),
         .admission 4000000000 "v" "250010123456789"]).cdr) = true ∧
    creates "250010123456789" [⟨"t", "250010123456789", .create⟩] =
      deletions "250010123456789" [⟨"t", "250010123456789", .create⟩] + 1 :=
  ⟨(cdr_alternation ⟨[], 2, 2⟩
      [.admission 0 "t" "250010123456789", .sweep 3000000000 (fun _ => "u"),
       .admission 4000000000 "v" "250010123456789"] "250010123456789").1,
   (cdr_alternation ⟨[], 2, 2⟩
      [.admission 0 "t" "250010123456789", .sweep 3000000000 (fun _ => "u"),
       .admission 4000000000 "v" "250010123456789"] "250010123456789").2.2
    [⟨"t", "250010123456789", .create⟩] ⟨"u", "250010123456789", .deleted⟩
    [⟨"v", "250010123456789", .create⟩] (by decide) rfl rfl⟩

/-! ### The graceful-drain loop -/

theorem filter_not_mem_take (m : Sessions) (h : (Sessions.keys m).Nodup) (r : Nat) :
    m.filter (fun e => decide (e.1 ∉ (Sessions.keys m).take r)) = m.drop r := by
  induction m generalizing r with
  | nil => simp
  | cons e rest ih =>
    cases r with
    | zero => simp
    | succ r =>
      simp only [Sessions.keys, List.map_cons, List.nodup_cons] at h
      obtain ⟨hhead, hrest⟩ := h
      simp only [Sessions.keys, List.map_cons, List.take_succ_cons, List.drop_succ_cons,
        List.filter_cons, List.mem_cons, true_or, not_true_eq_false, decide_False,
        Bool.false_eq_true, if_false]
      rw [← ih hrest r]
      apply List.filter_congr
      intro e' he'
      have hne : e'.1 ≠ e.1 := fun hc => hhead (hc ▸ List.mem_map_of_mem Prod.fst he')
      simp [hne, Sessions.keys]

theorem drainStep_eq (R : Int) (stamp : String) (s : Server) (hwf : Sessions.WF s.sessions) :
    deleteBatch stamp (firstBatch R s.sessions 0) s =
      { sessions := s.sessions.drop R.toNat,
        cdr := s.cdr ++ ((Sessions.keys s.sessions).take R.toNat).map
          (fun x => ⟨stamp, x, CdrEvent.deleteWithShutdown⟩) } := by
  rw [firstBatch_eq, sub_zero]
  have h1 := deleteBatch_sessions stamp ((Sessions.keys s.sessions).take R.toNat) s
  have h2 := deleteBatch_cdr stamp ((Sessions.keys s.sessions).take R.toNat) s
  rw [filter_not_mem_take _ (wf_nodup _ hwf)] at h1
  cases hres : deleteBatch stamp ((Sessions.keys s.sessions).take R.toNat) s with
  | mk sessions cdr =>
    rw [hres] at h1 h2
    simp only at h1 h2
    rw [h1, h2]

theorem drop_wf (m : Sessions) (r : Nat) (h : Sessions.WF m) : Sessions.WF (m.drop r) :=
  List.Pairwise.sublist (List.Sublist.map Prod.fst (List.drop_sublist r m)) h

theorem batches_after (n r : Nat) (hr : 1 ≤ r) (hn : 1 ≤ n) :
    (n + r - 1) / r = (n - r + r - 1) / r + 1 := by
  by_cases h : r ≤ n
  · have e1 : n - r + r - 1 = n - 1 := by omega
    have e2 : n + r - 1 = n - 1 + r := by omega
    rw [e1, e2, Nat.add_div_right _ (by omega)]
  · have e1 : n - r + r - 1 = r - 1 := by omega
    have e2 : n + r - 1 = n - 1 + r := by omega
    rw [e1, e2, Nat.add_div_right _ (by omega), Nat.div_eq_of_lt (by omega),
      Nat.div_eq_of_lt (by omega)]

/-- Claim C9: the graceful-drain loop with pacing rate `R ≥ 1` on a table of `n`
entries with pairwise distinct keys.  Given room for more than `⌈n / R⌉` passes
the loop ends; it has then made exactly `⌈n / R⌉` deleting passes; pass `i`
took the identities at table positions `i*R .. i*R + R - 1` (the first
`min R remaining` of what was left), never more than `R`; the table is empty;
the CDR stream is the old stream followed by one `delete with shutdown` record
for each of the `n` identities, in table order; and a single pass removes the
first `R` entries of the table and appends one `delete with shutdown` record
for each of them. -/
theorem drainLoop_spec (R : Int) (hR : 1 ≤ R) (stamp : Nat → String) (fuel k : Nat)
    (s : Server) (hwf : Sessions.WF s.sessions)
    (hfuel : (s.sessions.length + R.toNat - 1) / R.toNat < fuel) :
    ∃ final batches, drainLoop R stamp fuel k s = some (final, batches) ∧
      batches.length = (s.sessions.length + R.toNat - 1) / R.toNat ∧
      (∀ i, i < batches.length →
        batches.getD i [] = ((Sessions.keys s.sessions).drop (i * R.toNat)).take R.toNat ∧
        (batches.getD i []).length = min R.toNat (s.sessions.length - i * R.toNat)) ∧
      (∀ batch ∈ batches, (batch.length : Int) ≤ R) ∧
      final.sessions = [] ∧
      (∃ added, final.cdr = s.cdr ++ added ∧
        added.map CdrRecord.entry =
          (Sessions.keys s.sessions).map (fun x => (x, CdrEvent.deleteWithShutdown))) ∧
      (∀ st, drainStep R st s =
        ⟨s.sessions.drop R.toNat, s.cdr ++ ((Sessions.keys s.sessions).take R.toNat).map
          (fun x => ⟨st, x, CdrEvent.deleteWithShutdown⟩)⟩) := by
  have hr : 1 ≤ R.toNat := by omega
  have hpass : ∀ (s : Server), Sessions.WF s.sessions → ∀ st, drainStep R st s =
      ⟨s.sessions.drop R.toNat, s.cdr ++ ((Sessions.keys s.sessions).take R.toNat).map
        (fun x => ⟨st, x, CdrEvent.deleteWithShutdown⟩)⟩ := by
    intro s hwf st
    unfold drainStep
    by_cases hempty : s.sessions.isEmpty = true
    · rw [if_pos hempty]
      have hnil : s.sessions = [] := List.isEmpty_iff.mp hempty
      cases s with
      | mk sessions cdr =>
        simp only at hnil
        subst hnil
        simp [Sessions.keys]
    · rw [if_neg hempty]
      exact drainStep_eq R st s hwf
  induction fuel generalizing k s with
  | zero => exact absurd hfuel (Nat.not_lt_zero _)
  | succ fuel ih =>
    unfold drainLoop
    by_cases hempty : s.sessions.isEmpty = true
    · rw [if_pos hempty]
      have hnil : s.sessions = [] := List.isEmpty_iff.mp hempty
      refine ⟨s, [], rfl, ?_, ?_, ?_, hnil, ⟨[], by simp, by simp [hnil, Sessions.keys]⟩,
        hpass s hwf⟩
      · rw [hnil]
        simp only [List.length_nil, zero_add]
        exact (Nat.div_eq_of_lt (by omega)).symm
      · intro i hi
        simp at hi
      · intro batch hb
        simp at hb
    · rw [if_neg hempty]
      have hpos : 1 ≤ s.sessions.length := by
        cases hs : s.sessions with
        | nil => simp [hs] at hempty
        | cons e rest => simp
      have hbat := batches_after s.sessions.length R.toNat hr hpos
      simp only
      rw [drainStep_eq R (stamp k) s hwf]
      obtain ⟨final, batches, hrun, hlen, hidx, hle, hfin, ⟨added, hcdr, hadded⟩, _⟩ :=
        ih (k + 1)
          { sessions := s.sessions.drop R.toNat,
            cdr := s.cdr ++ ((Sessions.keys s.sessions).take R.toNat).map
              (fun x => ⟨stamp k, x, CdrEvent.deleteWithShutdown⟩) }
          (drop_wf _ _ hwf)
          (by simp only [List.length_drop]; omega)
      simp only [List.length_drop] at hlen hidx
      have hkeys : Sessions.keys (s.sessions.drop R.toNat) =
          (Sessions.keys s.sessions).drop R.toNat := by
        simp [Sessions.keys, List.map_drop]
      rw [hrun]
      refine ⟨final, firstBatch R s.sessions 0 :: batches, rfl, ?_, ?_, ?_, hfin, ?_,
        hpass s hwf⟩
      · rw [List.length_cons, hlen]
        omega
      · intro i hi
        cases i with
        | zero =>
          simp only [List.getD_cons_zero, Nat.zero_mul, List.drop_zero, Nat.sub_zero]
          rw [firstBatch_eq, sub_zero]
          refine ⟨rfl, ?_⟩
          simp [Sessions.keys, List.length_take]
        | succ i =>
          simp only [List.length_cons, Nat.add_lt_add_iff_right] at hi
          obtain ⟨h1, h2⟩ := hidx i hi
          simp only [List.getD_cons_succ]
          have e1 : R.toNat + i * R.toNat = (i + 1) * R.toNat := by ring
          have e2 : s.sessions.length - R.toNat - i * R.toNat =
              s.sessions.length - (i + 1) * R.toNat := by
            rw [← e1]
            omega
          refine ⟨?_, ?_⟩
          · rw [h1, hkeys, List.drop_drop, e1]
          · rw [h2, e2]
      · intro batch hb
        rcases List.mem_cons.mp hb with rfl | hb'
        · rw [firstBatch_eq, sub_zero, List.length_take]
          omega
        · exact hle batch hb'
      · refine ⟨((Sessions.keys s.sessions).take R.toNat).map
            (fun x => ⟨stamp k, x, CdrEvent.deleteWithShutdown⟩) ++ added, ?_, ?_⟩
        · rw [hcdr]
          simp
        · rw [List.map_append, hadded, hkeys, List.map_map]
          conv_rhs => rw [← List.take_append_drop R.toNat (Sessions.keys s.sessions)]
          rw [List.map_append]
          rfl

/-- Witness for claim C9: ten sessions drained at rate 2 end after five passes
with the table empty. -/
theorem drainLoop_spec_witness :
    Sessions.WF tenSessions ∧
    ∃ final batches, drainLoop 2 (fun _ => "t") 6 0 ⟨tenSessions, []⟩ = some (final, batches) ∧
      batches.length = 5 ∧ (∀ batch ∈ batches, (batch.length : Int) ≤ 2) ∧
      final.sessions = [] := by
  obtain ⟨final, batches, h1, h2, _, h4, h5, _, _⟩ :=
    drainLoop_spec 2 (by decide) (fun _ => "t") 6 0 ⟨tenSessions, []⟩ (by decide) (by decide)
  exact ⟨by decide, final, batches, h1, h2, h4, h5⟩

/-- Claim C6 fails on the code.  The vector handed to `convertBcdToImsi` is
always the 8 bytes of `buffer`, whatever `recvfrom` returned, so the length
test never fires.  First statement: after a valid datagram for
`250010123456789` left its bytes in `buffer`, a 5-byte datagram
`11 11 11 11 11` is completed by the three old bytes `56 78 9F`, decodes to
`111111111156789`, and is admitted: a session is inserted, a `create` record
appended and `created` sent.  Second statement: a 9-byte datagram is cut to its
first 8 bytes and admitted as well. -/
theorem udpIteration_wrong_length :
    udpIteration [] false 9 "u" [0x25, 0, 0x10, 0x12, 0x34, 0x56, 0x78, 0x9F]
        (.datagram [0x11, 0x11, 0x11, 0x11, 0x11])
        ⟨[("250010123456789", 3)], [⟨"t", "250010123456789", .create⟩]⟩ =
      ⟨⟨[("111111111156789", 9), ("250010123456789", 3)],
          [⟨"t", "250010123456789", .create⟩, ⟨"u", "111111111156789", .create⟩]⟩,
        some "created", false⟩ ∧
    udpIteration [] false 9 "u" [0, 0, 0, 0, 0, 0, 0, 0]
        (.datagram [0x25, 0, 0x10, 0x12, 0x34, 0x56, 0x78, 0x9F, 0xAA]) Server.init =
      ⟨⟨[("250010123456789", 9)], [⟨"u", "250010123456789", .create⟩]⟩,
        some "created", false⟩ := by
  decide

end MiniPGW
